import Mathlib

/-!
Verification of the TypedFastBitSet.js library (the dense `TypedFastBitSet`
and the adaptive `SparseTypedFastBitSet`) against its natural-language
specification.

Modelling conventions (shallow embedding of the TypeScript source):

* a `Uint32Array` is a `List Nat` whose entries are 32-bit words (`< 2^32`);
  an out-of-range typed-array write is silently ignored, which coincides
  with `List.set`'s out-of-range behaviour, and an out-of-range read yields
  `undefined` (which the bitwise operators coerce to `0`), matching
  `List.getD _ 0`;
* for a non-negative 32-bit value `x`, JavaScript `x >>> 5` is `x / 32`,
  `1 << x` is `2 ^ (x % 32)` (shift counts are taken mod 32), and
  `& | ^` are `&&& ||| ^^^` on `Nat`; `~y` for a 32-bit `y` is
  `4294967295 ^^^ y`;
* `SparseTypedFastBitSet.arraySize` is modelled as an `Option Nat`:
  `some n` is a non-negative `arraySize` (array mode, `n` live slots) and
  `none` is the `-1` sentinel (bitset mode).
-/

namespace TFBS

/-- JavaScript `words[index >>> 5] |= 1 << index` on a `Uint32Array`. -/
def setBitW (w : List Nat) (index : Nat) : List Nat :=
  w.set (index / 32) (w.getD (index / 32) 0 ||| 2 ^ (index % 32))

/-- JavaScript `words[index >>> 5] &= ~(1 << index)`. -/
def clearBitW (w : List Nat) (index : Nat) : List Nat :=
  w.set (index / 32) (w.getD (index / 32) 0 &&& (4294967295 ^^^ 2 ^ (index % 32)))

/-- JavaScript `words[index >>> 5] ^= 1 << index`. -/
def flipBitW (w : List Nat) (index : Nat) : List Nat :=
  w.set (index / 32) (w.getD (index / 32) 0 ^^^ 2 ^ (index % 32))

/-- JavaScript `(words[index >>> 5] & (1 << index)) !== 0`, the dense
membership test (`TypedFastBitSet.has`, and `SparseTypedFastBitSet.has`
in bitset mode). -/
def hasBitW (w : List Nat) (index : Nat) : Bool :=
  w.getD (index / 32) 0 &&& 2 ^ (index % 32) != 0

/-- Models `const a = new Uint32Array(m); a.set(old)`: grow a buffer to
`m` words, zero-padded (in the source `m` is always at least the old
length at every call site). -/
def growTo (w : List Nat) (m : Nat) : List Nat :=
  w ++ List.replicate (m - w.length) 0

/-- State of a `SparseTypedFastBitSet`: `asize` models the `arraySize`
field (`some n` = array mode with `n` live slots, `none` = the `-1`
sentinel marking bitset mode) and `data` models the `Uint32Array` buffer. -/
structure Sparse where
  asize : Option Nat
  data : List Nat
deriving Repr, DecidableEq

/-- The live slots of an array-mode sparse set (`data[0 .. arraySize)`);
empty in bitset mode. -/
def Sparse.liveList (s : Sparse) : List Nat :=
  match s.asize with
  | some n => s.data.take n
  | none => []

/-- The conversion loop `for (i < arraySize) newWords[a[i] >>> 5] |= 1 << a[i]`
shared by `toBitset`, `resize` and `trim`. -/
def replayBits (entries : List Nat) (words : List Nat) : List Nat :=
  entries.foldl setBitW words

/-- `SparseTypedFastBitSet.toBitset`: size the fresh buffer from the cached
maximum `data[0]` (`count = (array[0] + 32) >>> 5`, doubled) and replay
every live entry as a set bit. -/
def Sparse.toBitset (s : Sparse) : List Nat :=
  let count := (s.data.getD 0 0 + 32) / 32
  replayBits s.liveList (List.replicate (count * 2) 0)

/-- The `words` getter of `SparseTypedFastBitSet`: in array mode it first
converts the representation (`data = toBitset(); arraySize = -1`), then
returns the buffer.  Returns the read value together with the post-state. -/
def Sparse.wordsGet (s : Sparse) : List Nat × Sparse :=
  match s.asize with
  | some _ => (s.toBitset, { asize := none, data := s.toBitset })
  | none => (s.data, s)

/-- `SparseTypedFastBitSet.resize(index, capacity)`.  The source also
returns `Type.ARRAY`/`Type.BITSET`; callers can read that tag off the
post-state's `asize`, which agrees with the returned tag in every branch. -/
def Sparse.resize (s : Sparse) (index : Nat) (capacity : Nat) : Sparse :=
  match s.asize with
  | none =>
    if index < s.data.length * 32 then s
    else
      let count := (index + 32) / 32
      { asize := none, data := growTo s.data (count * 2) }
  | some n =>
    let array := s.data
    if n + capacity < array.length then s
    else if array.length + capacity < 256 then
      { asize := some n, data := growTo array ((array.length + capacity) * 2) }
    else
      let count := (max (array.getD 0 0) index + 32) / 32
      if array.length + capacity < count ∧ (array.length + capacity) * 2 < 1024 then
        { asize := some n, data := growTo array ((array.length + capacity) * 2) }
      else
        { asize := none,
          data := replayBits (array.take n) (List.replicate (count * 2) 0) }

/-- JavaScript `array.indexOf(v) !== -1 && array.indexOf(v) < arraySize`
(the liveness test used by `add`, `checkedAdd`, `remove` and `has`):
`List.indexOf` returns `l.length` where JavaScript `indexOf` returns `-1`. -/
def foundLive (l : List Nat) (n v : Nat) : Bool :=
  l.indexOf v < l.length && l.indexOf v < n

/-- `SparseTypedFastBitSet.add`. -/
def Sparse.add (s : Sparse) (index : Nat) : Sparse :=
  let s1 := s.resize index 0
  match s1.asize with
  | some n =>
    let array := s1.data
    if n = 0 then { asize := some 1, data := array.set 0 index }
    else if foundLive array n index then s1
    else
      let biggest := array.getD 0 0
      if biggest < index then
        { asize := some (n + 1), data := (array.set 0 index).set n biggest }
      else
        { asize := some (n + 1), data := array.set n index }
  | none => { asize := none, data := setBitW s1.data index }

/-- A freshly constructed `SparseTypedFastBitSet` (array mode, 8-word
zeroed buffer). -/
def sparseEmpty : Sparse := { asize := some 0, data := List.replicate 8 0 }

/-- The `SparseTypedFastBitSet` constructor applied to an iterable: add
each value in order. -/
def sparseOfList (l : List Nat) : Sparse := l.foldl Sparse.add sparseEmpty

/-- The popcount bit trick (`hammingWeight` in `utils.ts`).  All arithmetic
is exact in `Nat`: the intermediate values stay below `2^32`, and the final
JavaScript multiply feeds `>>> 24`, which truncates to 32 bits first,
modelled by `% 4294967296`. -/
def hammingWeight (v : Nat) : Nat :=
  let v1 := v - ((v >>> 1) &&& 0x55555555)
  let v2 := (v1 &&& 0x33333333) + ((v1 >>> 2) &&& 0x33333333)
  (((v2 + (v2 >>> 4)) &&& 0xf0f0f0f) * 0x1010101 % 4294967296) >>> 24

/-- `hammingWeight4` in `utils.ts`: four interleaved popcount pipelines
whose four byte-wise partial counts are summed by one shared multiply. -/
def hammingWeight4 (v1 v2 v3 v4 : Nat) : Nat :=
  let w1 := v1 - ((v1 >>> 1) &&& 0x55555555)
  let w2 := v2 - ((v2 >>> 1) &&& 0x55555555)
  let w3 := v3 - ((v3 >>> 1) &&& 0x55555555)
  let w4 := v4 - ((v4 >>> 1) &&& 0x55555555)
  let x1 := (w1 &&& 0x33333333) + ((w1 >>> 2) &&& 0x33333333)
  let x2 := (w2 &&& 0x33333333) + ((w2 >>> 2) &&& 0x33333333)
  let x3 := (w3 &&& 0x33333333) + ((w3 >>> 2) &&& 0x33333333)
  let x4 := (w4 &&& 0x33333333) + ((w4 >>> 2) &&& 0x33333333)
  let y1 := (x1 + (x1 >>> 4)) &&& 0xf0f0f0f
  let y2 := (x2 + (x2 >>> 4)) &&& 0xf0f0f0f
  let y3 := (x3 + (x3 >>> 4)) &&& 0xf0f0f0f
  let y4 := (x4 + (x4 >>> 4)) &&& 0xf0f0f0f
  ((y1 + y2 + y3 + y4) * 0x1010101 % 4294967296) >>> 24

/-- The extraction loop `while (w != 0) { const t = w & -w; visit; w ^= t }`
over one 32-bit word (`-w` in unsigned 32-bit arithmetic is
`4294967296 - w`).  For `w < 2^32` each iteration clears one set bit, so
32 iterations always suffice; the fuel records that bound and makes the
recursion structural. -/
def bitsGo : Nat → Nat → List Nat
  | 0, _ => []
  | fuel + 1, w =>
    if w = 0 then []
    else
      let t := w &&& (4294967296 - w)
      hammingWeight (t - 1) :: bitsGo fuel (w ^^^ t)

/-- Bit positions of one 32-bit word in ascending order, as produced by
the `w & -w` loop of `array()`, `forEach` and the iterator. -/
def bitPosList (w : Nat) : List Nat := bitsGo 32 w

/-- `SparseTypedFastBitSet.array()`: in bitset mode, extract set-bit
positions word by word (`answer[pos++] = (k << 5) + hammingWeight(t - 1)`);
in array mode, copy the live slots in order. -/
def Sparse.arrayFn (s : Sparse) : List Nat :=
  match s.asize with
  | none =>
    (List.range s.data.length).flatMap fun k =>
      (bitPosList (s.data.getD k 0)).map fun j => k * 32 + j
  | some n => s.data.take n

/-- The swap-with-last sieve shared by the array-mode branches of
`removeRange`, `difference` and `difference2`:
`for (i = 0; i < arraySize; i++) if (p(array[i])) { if (i === 0) findBiggest = true; array[i--] = array[--arraySize]; }`.
Each iteration decreases `arraySize - i` by exactly one; the fuel records
that measure (wrappers pass `fuel = arraySize`) and makes the recursion
structural.  Returns the buffer, the new `arraySize` and `findBiggest`. -/
def sieveGo (p : Nat → Bool) : Nat → List Nat → Nat → Nat → Bool → List Nat × Nat × Bool
  | 0, data, n, _, fb => (data, n, fb)
  | fuel + 1, data, n, i, fb =>
    if p (data.getD i 0) then
      sieveGo p fuel (data.set i (data.getD (n - 1) 0)) (n - 1) i (fb || i == 0)
    else
      sieveGo p fuel data n (i + 1) fb

/-- The rescan
`for (i = start; i < arraySize; i++) if (array[i] > largest) { largest = array[i]; largestIndex = i; }`
with fuel `arraySize - start`. -/
def findLargestGo (data : List Nat) : Nat → Nat → Nat → Nat → Nat × Nat
  | 0, _, largest, li => (largest, li)
  | fuel + 1, i, largest, li =>
    if largest < data.getD i 0 then findLargestGo data fuel (i + 1) (data.getD i 0) i
    else findLargestGo data fuel (i + 1) largest li

/-- The `findBiggest` fix-up of `removeRange`/`difference`/`difference2`:
rescan every live slot for the maximum starting from slot 0
(`largest = array[0]; largestIndex = 0; for (i = 1; ...)`), then swap the
maximum into slot 0 (`current = array[0]; array[0] = array[largestIndex];
array[largestIndex] = current`). -/
def fixBiggest (data : List Nat) (n : Nat) : List Nat :=
  let r := findLargestGo data (n - 1) 1 (data.getD 0 0) 0
  (data.set 0 (data.getD r.2 0)).set r.2 (data.getD 0 0)

/-- `SparseTypedFastBitSet.difference` when the receiver is in array mode.
This code path reads the other operand only through its `has` method,
modelled by the predicate `hasO`. -/
def Sparse.differenceArr (s : Sparse) (hasO : Nat → Bool) : Sparse :=
  match s.asize with
  | some n =>
    let r := sieveGo hasO n s.data n 0 false
    if r.2.2 ∧ 1 < r.2.1 then { asize := some r.2.1, data := fixBiggest r.1 r.2.1 }
    else { asize := some r.2.1, data := r.1 }
  | none => s

/-- JavaScript `~0 << start` as an unsigned 32-bit word (the shift count
is taken mod 32). -/
def maskFrom (start : Nat) : Nat := 4294967295 <<< (start % 32) % 4294967296

/-- JavaScript `~0 >>> -end` as an unsigned 32-bit word: the unsigned
shift count is `(-end) mod 32`, i.e. `(32 - end % 32) % 32`. -/
def maskUpTo (endv : Nat) : Nat := 4294967295 >>> ((32 - endv % 32) % 32)

/-- JavaScript `words.fill(v, a, b)`. -/
def jsFill (l : List Nat) (v a b : Nat) : List Nat :=
  l.mapIdx fun i x => if a ≤ i ∧ i < b then v else x

/-- `SparseTypedFastBitSet.flip`.  In the swap-remove branch,
`array[arrayIndex] = array[--this.arraySize]` can drive `arraySize` from
`0` to `-1` when `index` only occurs among the garbage slots (the read of
`array[-1]` yields `undefined`, stored as `0`); the two `if n = 0`
corrections model exactly that JavaScript corner. -/
def Sparse.flip (s : Sparse) (index : Nat) : Sparse :=
  let s1 := s.resize index 0
  match s1.asize with
  | some n =>
    let array := s1.data
    let ai := array.indexOf index
    if ai = array.length then
      if 0 < n ∧ array.getD 0 0 < index then
        { asize := some (n + 1), data := (array.set n (array.getD 0 0)).set 0 index }
      else
        { asize := some (n + 1), data := array.set n index }
    else
      if ai = 0 ∧ 1 < n then
        let r := findLargestGo array (n - 2) 2 (array.getD 1 0) 1
        let a1 := array.set 0 (array.getD r.2 0)
        { asize := some (n - 1), data := a1.set r.2 (a1.getD (n - 1) 0) }
      else
        { asize := if n = 0 then none else some (n - 1),
          data := array.set ai (if n = 0 then 0 else array.getD (n - 1) 0) }
  | none => { asize := none, data := flipBitW s1.data index }

/-- `SparseTypedFastBitSet.remove`. -/
def Sparse.remove (s : Sparse) (index : Nat) : Sparse :=
  let s1 := s.resize index 0
  match s1.asize with
  | some n =>
    let array := s1.data
    let ai := array.indexOf index
    if ai < array.length ∧ ai < n then
      if ai = n - 1 then { asize := some (n - 1), data := array }
      else if ai = 0 ∧ 1 < n then
        let r := findLargestGo array (n - 2) 2 (array.getD 1 0) 1
        let a1 := array.set 0 (array.getD r.2 0)
        { asize := some (n - 1), data := a1.set r.2 (a1.getD (n - 1) 0) }
      else
        { asize := some (n - 1), data := array.set ai (array.getD (n - 1) 0) }
    else s1
  | none => { asize := none, data := clearBitW s1.data index }

/-- `SparseTypedFastBitSet.checkedAdd`: the added state together with the
1/0 return value. -/
def Sparse.checkedAdd (s : Sparse) (index : Nat) : Nat × Sparse :=
  let s1 := s.resize index 0
  match s1.asize with
  | some n =>
    let array := s1.data
    if n = 0 then (1, { asize := some 1, data := array.set 0 index })
    else if foundLive array n index then (0, s1)
    else
      let biggest := array.getD 0 0
      if biggest < index then
        (1, { asize := some (n + 1), data := (array.set 0 index).set n biggest })
      else
        (1, { asize := some (n + 1), data := array.set n index })
  | none =>
    let words := s1.data
    let word := words.getD (index / 32) 0
    let newword := word ||| 2 ^ (index % 32)
    ((newword ^^^ word) >>> (index % 32),
     { asize := none, data := words.set (index / 32) newword })

/-- The per-element append loop of array-mode `addRange`
(`for (; start < end; start++) { if absent from the live slots:
array[arraySize++] = start; }`), with fuel `end - start`. -/
def addRangeGo : Nat → List Nat → Nat → Nat → List Nat × Nat
  | 0, data, n, _ => (data, n)
  | fuel + 1, data, n, start =>
    if foundLive data n start then addRangeGo fuel data n (start + 1)
    else addRangeGo fuel (data.set n start) (n + 1) (start + 1)

/-- `SparseTypedFastBitSet.addRange`. -/
def Sparse.addRange (s : Sparse) (start endv : Nat) : Sparse :=
  if endv ≤ start then s
  else
    let s1 := s.resize endv (endv - start - 1)
    match s1.asize with
    | some n =>
      let array := s1.data
      let biggestAdd := endv - 1
      if n = 0 then
        let r := addRangeGo (endv - 1 - start) (array.set 0 biggestAdd) 1 start
        { asize := some r.2, data := r.1 }
      else if foundLive array n biggestAdd then
        let r := addRangeGo (endv - 1 - start) array n start
        { asize := some r.2, data := r.1 }
      else
        let biggest := array.getD 0 0
        if biggest < biggestAdd then
          let r := addRangeGo (endv - 1 - start)
            ((array.set 0 biggestAdd).set n biggest) (n + 1) start
          { asize := some r.2, data := r.1 }
        else
          let r := addRangeGo (endv - 1 - start) (array.set n biggestAdd) (n + 1) start
          { asize := some r.2, data := r.1 }
    | none =>
      let words := s1.data
      let firstword := start / 32
      let endword := (endv - 1) / 32
      if firstword = endword then
        { asize := none,
          data := words.set firstword
            (words.getD firstword 0 ||| (maskFrom start &&& maskUpTo endv)) }
      else
        let w1 := words.set firstword (words.getD firstword 0 ||| maskFrom start)
        let w2 := jsFill w1 4294967295 (firstword + 1) endword
        { asize := none, data := w2.set endword (w2.getD endword 0 ||| maskUpTo endv) }

/-- `SparseTypedFastBitSet.removeRange` (note the bitset branch clamps
`start` and `end` to `words.length * 32 - 1`; in the degenerate case of a
zero-length buffer the JavaScript clamp value is `-1` and every word
access is out of range, so both the source and the model do nothing). -/
def Sparse.removeRange (s : Sparse) (start endv : Nat) : Sparse :=
  if endv ≤ start then s
  else
    match s.asize with
    | some n =>
      let r := sieveGo (fun v => start ≤ v && v < endv) n s.data n 0 false
      if r.2.2 ∧ 1 < r.2.1 then { asize := some r.2.1, data := fixBiggest r.1 r.2.1 }
      else { asize := some r.2.1, data := r.1 }
    | none =>
      let words := s.data
      let start1 := min start (words.length * 32 - 1)
      let end1 := min endv (words.length * 32 - 1)
      let firstword := start1 / 32
      let endword := (end1 - 1) / 32
      if firstword = endword then
        { asize := none,
          data := words.set firstword
            (words.getD firstword 0 &&&
              (4294967295 ^^^ (maskFrom start1 &&& maskUpTo end1))) }
      else
        let w1 := words.set firstword
          (words.getD firstword 0 &&& (4294967295 ^^^ maskFrom start1))
        let w2 := jsFill w1 0 (firstword + 1) endword
        { asize := none,
          data := w2.set endword (w2.getD endword 0 &&& (4294967295 ^^^ maskUpTo end1)) }

/-- The array-mode receiver loop of `intersection`:
`for (i...) if (otherbitmap.has(v)) { if (i > 0 && v > array[0]) swap to front }
else { array[i--] = array[--arraySize]; }`, with fuel `arraySize - i`. -/
def interGo (hasO : Nat → Bool) : Nat → List Nat → Nat → Nat → List Nat × Nat
  | 0, data, n, _ => (data, n)
  | fuel + 1, data, n, i =>
    let v := data.getD i 0
    if hasO v then
      if 0 < i ∧ data.getD 0 0 < v then
        interGo hasO fuel ((data.set i (data.getD 0 0)).set 0 v) n (i + 1)
      else interGo hasO fuel data n (i + 1)
    else interGo hasO fuel (data.set i (data.getD (n - 1) 0)) (n - 1) i

/-- `SparseTypedFastBitSet.intersection` when the receiver is in array
mode; the other operand enters this code path only through its `has`
method, modelled by the predicate `hasO`. -/
def Sparse.intersectionArr (s : Sparse) (hasO : Nat → Bool) : Sparse :=
  match s.asize with
  | some n =>
    let r := interGo hasO n s.data n 0
    { asize := some r.2, data := r.1 }
  | none => s

/-- `SparseTypedFastBitSet.has`: bit test in bitset mode, live-slot
`indexOf` scan in array mode. -/
def Sparse.has (s : Sparse) (index : Nat) : Bool :=
  match s.asize with
  | none => hasBitW s.data index
  | some n => foundLive s.data n index

/-- `SparseTypedFastBitSet.change` when the other operand enters through
its `words` buffer (a dense `TypedFastBitSet`, or a sparse one already in
bitset mode).  In bitset mode the receiver runs the dense XOR algorithm
(`mincount` is read before the resize; the resize argument
`(otherWords.length << 5) - 1` is `-1` exactly when `otherWords` is empty,
and then the resize guard always fires, modelled by the emptiness test).
In array mode the receiver allocates
`max(otherWords.length, arraySize > 0 ? data[0] << (5 + 32) : 0)` fresh
words — the JavaScript shift count `5 + 32 = 37` is taken mod 32, so this
is the signed 32-bit value of `data[0] * 32` (a word count, not a bit
count, and `0` whenever `data[0] = 0`; when the signed value is negative
the `max` discards it) — copies the other buffer in, replays each live
entry as a bit flip, and switches to bitset mode. -/
def Sparse.changeDense (s : Sparse) (otherWords : List Nat) : Sparse :=
  match s.asize with
  | none =>
    let mincount := min s.data.length otherWords.length
    let s1 := if otherWords.length = 0 then s
      else s.resize (otherWords.length * 32 - 1) 0
    { asize := none,
      data := s1.data.mapIdx fun k x =>
        if k < mincount then x ^^^ otherWords.getD k 0
        else if k < otherWords.length then otherWords.getD k 0
        else x }
  | some n =>
    let raw := if 0 < n then s.data.getD 0 0 * 32 % 4294967296 else 0
    let alloc := if raw < 2147483648 then max otherWords.length raw
      else otherWords.length
    let words0 := growTo otherWords alloc
    { asize := none,
      data := (s.data.take n).foldl
        (fun w index =>
          if hasBitW w index then clearBitW w index else setBitW w index)
        words0 }

/-- Whether `SparseTypedFastBitSet.resize` replaces `this.data` with a
freshly allocated buffer: every branch except the capacity-check early
return does (`growTo` twice, and the bitset conversion). -/
def Sparse.resizeRealloc (s : Sparse) (index capacity : Nat) : Bool :=
  match s.asize with
  | none => ! decide (index < s.data.length * 32)
  | some n => ! decide (n + capacity < s.data.length)

/-- The array-mode `forEach` loop
`for (i = 0; i < this.arraySize; i++) { const v = array[i]; fnc(v);
if (v !== array[i]) i--; }` when the callback is
`fnc = (v) => this.remove(v)`.  `array` is the buffer reference captured
before the loop: as long as no `remove` has reallocated (`det = false`) it
aliases `s.data`, and from the first reallocating `remove` on it stays the
stale pre-reallocation buffer.  `this.arraySize` is re-read every
iteration (`none` means `-1`, stopping the loop).  All reads stay inside
the captured buffer because the live window only shrinks.  Each iteration
decreases `arraySize - i`; the fuel records that measure. -/
def forEachRemoveGo : Nat → Nat → List Nat → Bool → Sparse → List Nat
  | 0, _, _, _, _ => []
  | fuel + 1, i, arr, det, s =>
    match s.asize with
    | none => []
    | some n =>
      if i < n then
        let v := arr.getD i 0
        let det1 := det || s.resizeRealloc v 0
        let s1 := s.remove v
        let arr1 := if det1 then arr else s1.data
        let i1 := if v = arr1.getD i 0 then i + 1 else i
        v :: forEachRemoveGo fuel i1 arr1 det1 s1
      else []

/-- The values passed to the callback by `forEach` on an array-mode sparse
set when the callback removes exactly the value it was passed. -/
def Sparse.forEachRemoveVisits (s : Sparse) : List Nat :=
  match s.asize with
  | some n => forEachRemoveGo n 0 s.data false s
  | none => []

/-- `TypedFastBitSet.resize(index)`: grow the buffer to `(index + 32) >>> 5`
words, doubled, when `index` does not fit.  The index is an `Int` because
`difference2` and `change` call `resize((words.length << 5) - 1)`, which is
`-1` on a zero-length receiver (and then the guard `length << 5 > index`
holds, so nothing happens). -/
def resizeW (w : List Nat) (index : Int) : List Nat :=
  if index < (w.length : Int) * 32 then w
  else growTo w ((index.toNat + 32) / 32 * 2)

/-- `TypedFastBitSet.add`. -/
def addW (w : List Nat) (index : Nat) : List Nat :=
  setBitW (resizeW w index) index

/-- `TypedFastBitSet.addRange`. -/
def addRangeW (w : List Nat) (start endv : Nat) : List Nat :=
  if endv ≤ start then w
  else
    let w1 := if w.length * 32 ≤ endv then resizeW w endv else w
    let firstword := start / 32
    let endword := (endv - 1) / 32
    if firstword = endword then
      w1.set firstword (w1.getD firstword 0 ||| (maskFrom start &&& maskUpTo endv))
    else
      let w2 := w1.set firstword (w1.getD firstword 0 ||| maskFrom start)
      let w3 := jsFill w2 4294967295 (firstword + 1) endword
      w3.set endword (w3.getD endword 0 ||| maskUpTo endv)

/-- `TypedFastBitSet.removeRange`: both bounds are first clamped to
`(words.length << 5) - 1`, the largest index representable in the current
buffer (on a zero-length buffer the JavaScript clamp value is `-1` and the
`start >= end` guard fires, exactly as `Nat` truncation makes both clamped
bounds `0` here). -/
def removeRangeW (w : List Nat) (start endv : Nat) : List Nat :=
  let start1 := min start (w.length * 32 - 1)
  let end1 := min endv (w.length * 32 - 1)
  if end1 ≤ start1 then w
  else
    let firstword := start1 / 32
    let endword := (end1 - 1) / 32
    if firstword = endword then
      w.set firstword (w.getD firstword 0 &&&
        (4294967295 ^^^ (maskFrom start1 &&& maskUpTo end1)))
    else
      let w1 := w.set firstword (w.getD firstword 0 &&& (4294967295 ^^^ maskFrom start1))
      let w2 := jsFill w1 0 (firstword + 1) endword
      w2.set endword (w2.getD endword 0 &&& (4294967295 ^^^ maskUpTo end1))

/-- `TypedFastBitSet.difference` (`words[k] &= ~otherWords[k]` over the
common prefix; the 8-way unrolling of the source loop has the same
per-index effect). -/
def differenceW (w o : List Nat) : List Nat :=
  w.mapIdx fun k x =>
    if k < min w.length o.length then x &&& (4294967295 ^^^ o.getD k 0) else x

/-- `TypedFastBitSet.difference2`: `mincount` is read before the resize,
then `otherWords[k] = words[k] & ~otherWords[k]` over the common prefix,
`otherWords[k] = words[k]` up to `words.length`, and `fill(0)` beyond. -/
def difference2W (w o : List Nat) : List Nat :=
  let o1 := resizeW o ((w.length : Int) * 32 - 1)
  o1.mapIdx fun k x =>
    if k < min w.length o.length then w.getD k 0 &&& (4294967295 ^^^ x)
    else if k < w.length then w.getD k 0
    else 0

/-- `TypedFastBitSet.change` (dense receiver, dense argument):
resize to the other buffer's last representable index, XOR over the common
prefix (`mincount` is read before the resize), then copy the other
operand's tail. -/
def changeW (w o : List Nat) : List Nat :=
  let w1 := resizeW w ((o.length : Int) * 32 - 1)
  w1.mapIdx fun k x =>
    if k < min w.length o.length then x ^^^ o.getD k 0
    else if k < o.length then o.getD k 0
    else x

/-- `TypedFastBitSet.equals`: compare the common prefix wordwise, then
require the longer buffer's tail to be all zero. -/
def equalsW (w o : List Nat) : Bool :=
  ((List.range (min w.length o.length)).all fun k => w.getD k 0 == o.getD k 0) &&
  (if w.length < o.length then
    (List.range (o.length - w.length)).all fun k => o.getD (w.length + k) 0 == 0
  else if o.length < w.length then
    (List.range (w.length - o.length)).all fun k => w.getD (o.length + k) 0 == 0
  else true)

/-- Reference bit counter: the number of set bits among the `fuel` lowest
bits of `n`, peeling one bit per step. -/
def popcountAux : Nat → Nat → Nat
  | 0, _ => 0
  | fuel + 1, n => n % 2 + popcountAux fuel (n / 2)

/-- The number of set bits of a 32-bit word — the specification-side
meaning of "popcount". -/
def popcount32 (v : Nat) : Nat := popcountAux 32 v

/-- Value of a little-endian digit list in base `B`. -/
def wsum (B : Nat) : List Nat → Nat
  | [] => 0
  | d :: ds => d + B * wsum B ds

/-- Merge adjacent base-`B` digits into base-`B²` digits. -/
def pairUp (B : Nat) : List Nat → List Nat
  | [] => []
  | [a] => [a]
  | a :: b :: t => (a + B * b) :: pairUp B t

/-- Sum adjacent entries pairwise. -/
def sumPairs : List Nat → List Nat
  | [] => []
  | [a] => [a]
  | a :: b :: t => (a + b) :: sumPairs t

/-- The sixteen base-4 digits of a 32-bit word. -/
def digits4 (v : Nat) : List Nat := (List.range 16).map fun t => v / 4 ^ t % 4

theorem getD_set_self {l : List Nat} {i : Nat} {a : Nat} (h : i < l.length) :
    (l.set i a).getD i 0 = a := by
  simp [List.getD_eq_getElem?_getD, List.getElem?_set_self h]

theorem getD_set_ne {l : List Nat} {i j : Nat} (h : i ≠ j) (a : Nat) :
    (l.set i a).getD j 0 = l.getD j 0 := by
  simp [List.getD_eq_getElem?_getD, List.getElem?_set_ne h]

theorem length_setBitW (w : List Nat) (e : Nat) : (setBitW w e).length = w.length := by
  simp [setBitW]

theorem hasBitW_eq_testBit (w : List Nat) (i : Nat) :
    hasBitW w i = (w.getD (i / 32) 0).testBit (i % 32) := by
  unfold hasBitW
  rw [Nat.and_two_pow]
  cases h : (w.getD (i / 32) 0).testBit (i % 32) <;>
    simp [h, Nat.pos_iff_ne_zero, (Nat.two_pow_pos (i % 32)).ne.symm]

theorem hasBitW_setBitW (w : List Nat) (e : Nat) (he : e / 32 < w.length) (v : Nat) :
    (hasBitW (setBitW w e) v = true ↔ v = e ∨ hasBitW w v = true) := by
  rw [hasBitW_eq_testBit, hasBitW_eq_testBit]
  unfold setBitW
  by_cases hdiv : v / 32 = e / 32
  · rw [hdiv, getD_set_self he, Nat.testBit_or, Nat.testBit_two_pow]
    by_cases hmod : v % 32 = e % 32
    · have hve : v = e := by omega
      simp [hve]
    · have : ¬ e % 32 = v % 32 := fun h => hmod h.symm
      have hne : v ≠ e := by omega
      simp [this, hne, hdiv]
  · rw [getD_set_ne (fun h => hdiv h.symm)]
    have hne : v ≠ e := by omega
    simp [hne]

theorem hasBitW_replayBits (entries : List Nat) (w : List Nat)
    (hfit : ∀ e ∈ entries, e / 32 < w.length) (v : Nat) :
    (hasBitW (replayBits entries w) v = true ↔ v ∈ entries ∨ hasBitW w v = true) := by
  induction entries generalizing w with
  | nil => simp [replayBits]
  | cons e es ih =>
    have hfit' : ∀ x ∈ es, x / 32 < (setBitW w e).length := by
      intro x hx; rw [length_setBitW]; exact hfit x (List.mem_cons_of_mem _ hx)
    have he : e / 32 < w.length := hfit e (List.mem_cons_self e es)
    calc hasBitW (replayBits (e :: es) w) v = true
        ↔ v ∈ es ∨ hasBitW (setBitW w e) v = true := ih (setBitW w e) hfit'
      _ ↔ v ∈ es ∨ (v = e ∨ hasBitW w v = true) := by
          rw [hasBitW_setBitW w e he v]
      _ ↔ v ∈ e :: es ∨ hasBitW w v = true := by
          simp [List.mem_cons]; tauto

theorem foundLive_iff (l : List Nat) (n v : Nat) :
    (foundLive l n v = true ↔ v ∈ l.take n) := by
  induction l generalizing n with
  | nil => simp [foundLive]
  | cons a l ih =>
    cases n with
    | zero => simp [foundLive]
    | succ m =>
      by_cases hav : a = v
      · subst hav
        simp [foundLive, List.indexOf_cons_self]
      · have hba : (a == v) = false := by simp [hav]
        have hcons : (a :: l).indexOf v = l.indexOf v + 1 := by
          simp [List.indexOf_cons, hba]
        have ihm := ih m
        simp only [foundLive, Bool.and_eq_true, decide_eq_true_eq] at ihm ⊢
        rw [hcons]
        simp only [List.length_cons, List.take_succ_cons, List.mem_cons]
        constructor
        · intro h
          exact Or.inr (ihm.mp ⟨by omega, by omega⟩)
        · rintro (h | h)
          · exact absurd h.symm hav
          · have h2 := ihm.mpr h
            exact ⟨by omega, by omega⟩

theorem sparse_has_iff_liveList (s : Sparse) (n : Nat) (hn : s.asize = some n) (v : Nat) :
    (s.has v = true ↔ v ∈ s.liveList) := by
  unfold Sparse.has Sparse.liveList
  rw [hn]
  exact foundLive_iff s.data n v

theorem getD_replicate_zero (m i : Nat) : (List.replicate m (0 : Nat)).getD i 0 = 0 := by
  rw [List.getD_eq_getElem?_getD, List.getElem?_replicate]
  split <;> rfl

theorem hasBitW_replicate_zero (m v : Nat) :
    hasBitW (List.replicate m (0 : Nat)) v = false := by
  rw [hasBitW_eq_testBit, getD_replicate_zero]
  simp

theorem toBitset_spec (s : Sparse) (n : Nat) (hn : s.asize = some n)
    (hmax : ∀ v ∈ s.data.take n, v ≤ s.data.getD 0 0) (v : Nat) :
    (hasBitW s.toBitset v = true ↔ v ∈ s.liveList) := by
  unfold Sparse.toBitset
  have hfit : ∀ e ∈ s.liveList, e / 32 < (List.replicate ((s.data.getD 0 0 + 32) / 32 * 2) 0).length := by
    intro e he
    rw [List.length_replicate]
    have h1 : e ≤ s.data.getD 0 0 := by
      unfold Sparse.liveList at he; rw [hn] at he; exact hmax e he
    have h2 : e / 32 ≤ s.data.getD 0 0 / 32 := Nat.div_le_div_right h1
    omega
  rw [hasBitW_replayBits s.liveList _ hfit v]
  rw [hasBitW_replicate_zero]
  simp

/-- C10: on an array-mode `SparseTypedFastBitSet` (well-formed: the cached
maximum invariant holds), merely reading the public `words` property
converts the representation to bitset mode, the conversion is permanent
(a second read returns the same buffer without further change), and the
membership set is unchanged. -/
theorem C10_words_getter_converts (s : Sparse) (n : Nat) (hn : s.asize = some n)
    (hmax : ∀ v ∈ s.data.take n, v ≤ s.data.getD 0 0) :
    s.wordsGet.2.asize = none ∧
    s.wordsGet.2.wordsGet = (s.wordsGet.1, s.wordsGet.2) ∧
    (∀ v, s.wordsGet.2.has v = s.has v) := by
  unfold Sparse.wordsGet
  rw [hn]
  refine ⟨rfl, rfl, fun v => ?_⟩
  show Sparse.has { asize := none, data := s.toBitset } v = s.has v
  have h1 : Sparse.has { asize := none, data := s.toBitset } v = hasBitW s.toBitset v := rfl
  rw [h1]
  have h2 := toBitset_spec s n hn hmax v
  have h3 := sparse_has_iff_liveList s n hn v
  cases hb : hasBitW s.toBitset v <;> cases hsv : s.has v
  · rfl
  · exact absurd (h2.mpr (h3.mp hsv)) (by simp [hb])
  · exact absurd (h3.mpr (h2.mp hb)) (by simp [hsv])
  · rfl

/-- C10 witness. -/
theorem C10_words_getter_converts_witness :
    (sparseOfList [10,1,4,3,2,5]).wordsGet.2.asize = none ∧
    (sparseOfList [10,1,4,3,2,5]).wordsGet.2.wordsGet
      = ((sparseOfList [10,1,4,3,2,5]).wordsGet.1, (sparseOfList [10,1,4,3,2,5]).wordsGet.2) ∧
    (∀ v, (sparseOfList [10,1,4,3,2,5]).wordsGet.2.has v = (sparseOfList [10,1,4,3,2,5]).has v) :=
  C10_words_getter_converts (sparseOfList [10,1,4,3,2,5]) 6 (by decide) (by decide)

/-- Slot 0 caches the maximum of the live window `data[0 .. n)`. -/
def MaxLive (d : List Nat) (n : Nat) : Prop :=
  ∀ j, j < n → d.getD j 0 ≤ d.getD 0 0

/-- The live slots hold pairwise distinct values (each remaining slot
holds one of the *other* elements). -/
def DistinctLive (d : List Nat) (n : Nat) : Prop :=
  ∀ j k, j < n → k < n → j ≠ k → d.getD j 0 ≠ d.getD k 0

/-- The biggest-first invariant of the claim, asserted whenever the state
is in array mode. -/
def ArrStateInv (s : Sparse) : Prop :=
  ∀ n, s.asize = some n → MaxLive s.data n ∧ DistinctLive s.data n

theorem mem_take_iff_getD (d : List Nat) (n v : Nat) :
    v ∈ d.take n ↔ ∃ j, j < n ∧ j < d.length ∧ d.getD j 0 = v := by
  constructor
  · intro h
    rw [List.mem_iff_getElem] at h
    obtain ⟨i, hi, hv⟩ := h
    have hlen : i < min n d.length := by simpa [List.length_take] using hi
    have hq : (d.take n)[i]? = some v := by
      rw [List.getElem?_eq_getElem hi]; exact congrArg some hv
    rw [List.getElem?_take_of_lt (by omega)] at hq
    refine ⟨i, by omega, by omega, ?_⟩
    rw [List.getD_eq_getElem?_getD, hq]
    rfl
  · rintro ⟨j, hj1, hj2, hv⟩
    have hq : d[j]? = some (d.getD j 0) := by
      rw [List.getD_eq_getElem?_getD, List.getElem?_eq_getElem hj2]
      rfl
    have hq2 : (d.take n)[j]? = some (d.getD j 0) := by
      rw [List.getElem?_take_of_lt hj1]; exact hq
    have hmem : d.getD j 0 ∈ d.take n := by
      rw [List.mem_iff_getElem?]; exact ⟨j, hq2⟩
    rw [hv] at hmem; exact hmem

theorem foundLive_iff_getD (d : List Nat) (n v : Nat) :
    (foundLive d n v = true ↔ ∃ j, j < n ∧ j < d.length ∧ d.getD j 0 = v) :=
  (foundLive_iff d n v).trans (mem_take_iff_getD d n v)

theorem indexOf_eq_length_iff_getD (d : List Nat) (v : Nat) :
    (d.indexOf v = d.length ↔ ∀ j, j < d.length → d.getD j 0 ≠ v) := by
  constructor
  · intro h j hj hv
    have hmem : v ∈ d := by
      rw [List.mem_iff_getElem]
      refine ⟨j, hj, ?_⟩
      rw [List.getD_eq_getElem?_getD, List.getElem?_eq_getElem hj] at hv
      simpa using hv
    have := List.indexOf_lt_length.mpr hmem
    omega
  · intro h
    by_contra hne
    have hlt : d.indexOf v < d.length :=
      Nat.lt_of_le_of_ne (List.indexOf_le_length) hne
    have hmem : v ∈ d := List.indexOf_lt_length.mp hlt
    rw [List.mem_iff_getElem] at hmem
    obtain ⟨j, hj, hv⟩ := hmem
    refine h j hj ?_
    rw [List.getD_eq_getElem?_getD, List.getElem?_eq_getElem hj]
    simpa using hv

theorem findLargestGo_spec (d : List Nat) :
    ∀ fuel i largest li, d.getD li 0 = largest →
      d.getD (findLargestGo d fuel i largest li).2 0 = (findLargestGo d fuel i largest li).1 ∧
      largest ≤ (findLargestGo d fuel i largest li).1 ∧
      ((findLargestGo d fuel i largest li).2 = li ∨
        (i ≤ (findLargestGo d fuel i largest li).2 ∧
          (findLargestGo d fuel i largest li).2 < i + fuel)) ∧
      (∀ j, i ≤ j → j < i + fuel → d.getD j 0 ≤ (findLargestGo d fuel i largest li).1) := by
  intro fuel
  induction fuel with
  | zero =>
    intro i largest li h
    refine ⟨h, le_refl _, Or.inl rfl, ?_⟩
    intro j h1 h2; omega
  | succ f ih =>
    intro i largest li h
    simp only [findLargestGo]
    by_cases hc : largest < d.getD i 0
    · rw [if_pos hc]
      obtain ⟨h1, h2, h3, h4⟩ := ih (i + 1) (d.getD i 0) i rfl
      refine ⟨h1, le_trans (le_of_lt hc) h2, ?_, ?_⟩
      · rcases h3 with h3 | h3
        · right; omega
        · right; omega
      · intro j hj1 hj2
        rcases Nat.eq_or_lt_of_le hj1 with rfl | hj
        · exact h2
        · exact h4 j (by omega) (by omega)
    · rw [if_neg hc]
      obtain ⟨h1, h2, h3, h4⟩ := ih (i + 1) largest li h
      refine ⟨h1, h2, ?_, ?_⟩
      · rcases h3 with h3 | h3
        · exact Or.inl h3
        · right; omega
      · intro j hj1 hj2
        rcases Nat.eq_or_lt_of_le hj1 with rfl | hj
        · exact le_trans (Nat.le_of_not_lt hc) h2
        · exact h4 j (by omega) (by omega)

theorem getD_swap_spec (d : List Nat) (a b : Nat) (ha : a < d.length) (hb : b < d.length)
    (j : Nat) :
    ((d.set a (d.getD b 0)).set b (d.getD a 0)).getD j 0 =
      if j = b then d.getD a 0 else if j = a then d.getD b 0 else d.getD j 0 := by
  by_cases hjb : j = b
  · subst hjb
    rw [if_pos rfl, getD_set_self (by simpa using hb)]
  · rw [if_neg hjb, getD_set_ne (fun h => hjb h.symm)]
    by_cases hja : j = a
    · subst hja
      rw [if_pos rfl, getD_set_self ha]
    · rw [if_neg hja, getD_set_ne (fun h => hja h.symm)]

theorem DistinctLive_swap (d : List Nat) (n a b : Nat)
    (halen : a < d.length) (hblen : b < d.length) (han : a < n) (hbn : b < n)
    (hdis : DistinctLive d n) :
    DistinctLive ((d.set a (d.getD b 0)).set b (d.getD a 0)) n := by
  intro j k hj hk hjk
  rw [getD_swap_spec d a b halen hblen j, getD_swap_spec d a b halen hblen k]
  split_ifs <;>
    first
      | omega
      | exact hdis _ _ (by omega) (by omega) (by omega)

theorem sieveGo_inv (p : Nat → Bool) :
    ∀ fuel d n i fb, fuel = n - i → i ≤ n → n ≤ d.length → DistinctLive d n →
      (sieveGo p fuel d n i fb).2.1 ≤ n ∧
      (sieveGo p fuel d n i fb).1.length = d.length ∧
      DistinctLive (sieveGo p fuel d n i fb).1 (sieveGo p fuel d n i fb).2.1 ∧
      (∀ j, j < (sieveGo p fuel d n i fb).2.1 →
        ∃ k, k < n ∧ (sieveGo p fuel d n i fb).1.getD j 0 = d.getD k 0) ∧
      ((sieveGo p fuel d n i fb).2.2 = false → fb = false) ∧
      ((sieveGo p fuel d n i fb).2.2 = false →
        (sieveGo p fuel d n i fb).1.getD 0 0 = d.getD 0 0) := by
  intro fuel
  induction fuel with
  | zero =>
    intro d n i fb hfuel hin hlen hdis
    exact ⟨le_refl _, rfl, hdis, fun j hj => ⟨j, hj, rfl⟩, fun h => h, fun _ => rfl⟩
  | succ f ih =>
    intro d n i fb hfuel hin hlen hdis
    have hiltn : i < n := by omega
    simp only [sieveGo]
    by_cases hp : p (d.getD i 0) = true
    · rw [if_pos hp]
      have hilen : i < d.length := by omega
      have hlen' : n - 1 ≤ (d.set i (d.getD (n - 1) 0)).length := by
        simp; omega
      have hdis' : DistinctLive (d.set i (d.getD (n - 1) 0)) (n - 1) := by
        intro j k hj hk hjk
        by_cases hji : j = i
        · subst hji
          rw [getD_set_self hilen, getD_set_ne (fun h => hjk h)]
          exact hdis (n - 1) k (by omega) (by omega) (by omega)
        · by_cases hki : k = i
          · subst hki
            rw [getD_set_ne (fun h => hji h.symm), getD_set_self hilen]
            exact hdis j (n - 1) (by omega) (by omega) (by omega)
          · rw [getD_set_ne (fun h => hji h.symm), getD_set_ne (fun h => hki h.symm)]
            exact hdis j k (by omega) (by omega) hjk
      obtain ⟨g1, g2, g3, g4, g5, g6⟩ :=
        ih (d.set i (d.getD (n - 1) 0)) (n - 1) i (fb || i == 0) (by omega) (by omega)
          hlen' hdis'
      refine ⟨by omega, by rw [g2]; simp, g3, ?_, ?_, ?_⟩
      · intro j hj
        obtain ⟨k, hk, he⟩ := g4 j hj
        by_cases hki : k = i
        · subst hki
          rw [getD_set_self hilen] at he
          exact ⟨n - 1, by omega, he⟩
        · rw [getD_set_ne (fun h => hki h.symm)] at he
          exact ⟨k, by omega, he⟩
      · intro h
        have := g5 h
        cases fb
        · rfl
        · simp at this
      · intro h
        have hfb : (fb || (i == 0)) = false := g5 h
        have hi0 : i ≠ 0 := by
          intro h0; subst h0; simp at hfb
        rw [g6 h, getD_set_ne hi0]
    · rw [if_neg hp]
      exact ih d n (i + 1) fb (by omega) (by omega) hlen hdis

theorem interGo_inv (hasO : Nat → Bool) :
    ∀ fuel d n i, fuel = n - i → i ≤ n → n ≤ d.length →
      (∀ j, j < i → d.getD j 0 ≤ d.getD 0 0) → DistinctLive d n →
      MaxLive (interGo hasO fuel d n i).1 (interGo hasO fuel d n i).2 ∧
      DistinctLive (interGo hasO fuel d n i).1 (interGo hasO fuel d n i).2 ∧
      (interGo hasO fuel d n i).2 ≤ n ∧
      (interGo hasO fuel d n i).1.length = d.length := by
  intro fuel
  induction fuel with
  | zero =>
    intro d n i hfuel hin hlen hpre hdis
    have hieq : i = n := by omega
    subst hieq
    exact ⟨hpre, hdis, le_refl _, rfl⟩
  | succ f ih =>
    intro d n i hfuel hin hlen hpre hdis
    have hiltn : i < n := by omega
    have hilen : i < d.length := by omega
    simp only [interGo]
    by_cases hh : hasO (d.getD i 0) = true
    · rw [if_pos hh]
      by_cases hsw : 0 < i ∧ d.getD 0 0 < d.getD i 0
      · rw [if_pos hsw]
        have h0len : 0 < d.length := by omega
        have hg0 : ((d.set i (d.getD 0 0)).set 0 (d.getD i 0)).getD 0 0 = d.getD i 0 := by
          rw [getD_swap_spec d i 0 hilen h0len 0, if_pos rfl]
        have hpre' : ∀ j, j < i + 1 →
            ((d.set i (d.getD 0 0)).set 0 (d.getD i 0)).getD j 0 ≤
              ((d.set i (d.getD 0 0)).set 0 (d.getD i 0)).getD 0 0 := by
          intro j hj
          rw [hg0, getD_swap_spec d i 0 hilen h0len j]
          by_cases hj0 : j = 0
          · rw [if_pos hj0]
          · rw [if_neg hj0]
            by_cases hji : j = i
            · rw [if_pos hji]
              exact le_of_lt hsw.2
            · rw [if_neg hji]
              exact le_trans (hpre j (by omega)) (le_of_lt hsw.2)
        have hdis' : DistinctLive ((d.set i (d.getD 0 0)).set 0 (d.getD i 0)) n :=
          DistinctLive_swap d n i 0 hilen h0len hiltn (by omega) hdis
        have hres := ih ((d.set i (d.getD 0 0)).set 0 (d.getD i 0)) n (i + 1)
          (by omega) (by omega) (by simp; omega) hpre' hdis'
        exact ⟨hres.1, hres.2.1, hres.2.2.1, by rw [hres.2.2.2]; simp⟩
      · rw [if_neg hsw]
        have hpre' : ∀ j, j < i + 1 → d.getD j 0 ≤ d.getD 0 0 := by
          intro j hj
          by_cases hji : j = i
          · subst hji
            by_cases hj0 : j = 0
            · rw [hj0]
            · have : ¬ d.getD 0 0 < d.getD j 0 := fun hc => hsw ⟨by omega, hc⟩
              omega
          · exact hpre j (by omega)
        exact ih d n (i + 1) (by omega) (by omega) hlen hpre' hdis
    · rw [if_neg hh]
      have hdis' : DistinctLive (d.set i (d.getD (n - 1) 0)) (n - 1) := by
        intro j k hj hk hjk
        by_cases hji : j = i
        · subst hji
          rw [getD_set_self hilen, getD_set_ne (fun h => hjk h)]
          exact hdis (n - 1) k (by omega) (by omega) (by omega)
        · by_cases hki : k = i
          · subst hki
            rw [getD_set_ne (fun h => hji h.symm), getD_set_self hilen]
            exact hdis j (n - 1) (by omega) (by omega) (by omega)
          · rw [getD_set_ne (fun h => hji h.symm), getD_set_ne (fun h => hki h.symm)]
            exact hdis j k (by omega) (by omega) hjk
      have hpre' : ∀ j, j < i → (d.set i (d.getD (n - 1) 0)).getD j 0 ≤
          (d.set i (d.getD (n - 1) 0)).getD 0 0 := by
        intro j hj
        have hi0 : i ≠ 0 := by omega
        rw [getD_set_ne (fun h => by omega), getD_set_ne hi0]
        exact hpre j hj
      have hres := ih (d.set i (d.getD (n - 1) 0)) (n - 1) i (by omega) (by omega)
        (by simp; omega) hpre' hdis'
      exact ⟨hres.1, hres.2.1, by omega, by rw [hres.2.2.2]; simp⟩

theorem getD_set_set (d : List Nat) (p q x y : Nat) (hp : p < d.length)
    (hq : q < d.length) (j : Nat) :
    ((d.set p x).set q y).getD j 0 = if j = q then y else if j = p then x else d.getD j 0 := by
  by_cases hjq : j = q
  · subst hjq
    rw [if_pos rfl, getD_set_self (by simpa using hq)]
  · rw [if_neg hjq, getD_set_ne (fun h => hjq h.symm)]
    by_cases hjp : j = p
    · subst hjp
      rw [if_pos rfl, getD_set_self hp]
    · rw [if_neg hjp, getD_set_ne (fun h => hjp h.symm)]

theorem getD_growTo (d : List Nat) (m j : Nat) : (growTo d m).getD j 0 = d.getD j 0 := by
  unfold growTo
  by_cases hj : j < d.length
  · rw [List.getD_eq_getElem?_getD, List.getElem?_append_left hj,
      ← List.getD_eq_getElem?_getD]
  · rw [List.getD_eq_getElem?_getD, List.getElem?_append_right (by omega)]
    have h1 : d.getD j 0 = 0 := by
      rw [List.getD_eq_getElem?_getD, List.getElem?_eq_none (by omega)]
      rfl
    rw [h1, List.getElem?_replicate]
    split <;> rfl

theorem resize_array_spec (s : Sparse) (n index cap m : Nat) (hn : s.asize = some n)
    (hlen : n ≤ s.data.length) (hm : (s.resize index cap).asize = some m) :
    m = n ∧ s.data.length ≤ (s.resize index cap).data.length ∧
    (∀ j, (s.resize index cap).data.getD j 0 = s.data.getD j 0) ∧
    (n = 0 ∨ n < (s.resize index cap).data.length) := by
  obtain ⟨a, d⟩ := s
  have ha : a = some n := hn
  subst ha
  dsimp only at hlen hm ⊢
  simp only [Sparse.resize] at hm ⊢
  by_cases h1 : n + cap < d.length
  · rw [if_pos h1] at hm ⊢
    have hm' : m = n := (by simpa using hm : n = m).symm
    exact ⟨hm', le_refl _, fun j => rfl, by dsimp only; omega⟩
  · rw [if_neg h1] at hm ⊢
    have hglen : ∀ t : Nat, d.length ≤ (growTo d t).length := by
      intro t; simp [growTo]
    have hglen2 : (growTo d ((d.length + cap) * 2)).length = max ((d.length + cap) * 2) d.length := by
      simp [growTo]; omega
    by_cases h2 : d.length + cap < 256
    · rw [if_pos h2] at hm ⊢
      have hm' : m = n := (by simpa using hm : n = m).symm
      refine ⟨hm', hglen _, fun j => getD_growTo d _ j, ?_⟩
      by_cases h0 : n = 0
      · exact Or.inl h0
      · right
        rw [hglen2]
        omega
    · rw [if_neg h2] at hm ⊢
      by_cases h3 : d.length + cap < (max (d.getD 0 0) index + 32) / 32 ∧
          (d.length + cap) * 2 < 1024
      · rw [if_pos h3] at hm ⊢
        have hm' : m = n := (by simpa using hm : n = m).symm
        refine ⟨hm', hglen _, fun j => getD_growTo d _ j, ?_⟩
        by_cases h0 : n = 0
        · exact Or.inl h0
        · right
          rw [hglen2]
          omega
      · rw [if_neg h3] at hm
        simp at hm

theorem fixBiggest_inv (d : List Nat) (n : Nat) (hn : 1 ≤ n) (hlen : n ≤ d.length)
    (hdis : DistinctLive d n) :
    MaxLive (fixBiggest d n) n ∧ DistinctLive (fixBiggest d n) n ∧
    (fixBiggest d n).length = d.length := by
  obtain ⟨h1, h2, h3, h4⟩ := findLargestGo_spec d (n - 1) 1 (d.getD 0 0) 0 rfl
  have hlin : (findLargestGo d (n - 1) 1 (d.getD 0 0) 0).2 < n := by
    rcases h3 with h | h
    · omega
    · omega
  have hlilen : (findLargestGo d (n - 1) 1 (d.getD 0 0) 0).2 < d.length := by omega
  have h0len : 0 < d.length := by omega
  have hswap : ∀ j, (fixBiggest d n).getD j 0 =
      if j = (findLargestGo d (n - 1) 1 (d.getD 0 0) 0).2 then d.getD 0 0
      else if j = 0 then d.getD (findLargestGo d (n - 1) 1 (d.getD 0 0) 0).2 0
      else d.getD j 0 := by
    intro j
    exact getD_set_set d 0 _ _ _ h0len hlilen j
  have htop : (fixBiggest d n).getD 0 0 = (findLargestGo d (n - 1) 1 (d.getD 0 0) 0).1 := by
    rw [hswap 0]
    by_cases h0li : (0 : Nat) = (findLargestGo d (n - 1) 1 (d.getD 0 0) 0).2
    · rw [if_pos h0li, ← h1, ← h0li]
    · rw [if_neg h0li, if_pos rfl, h1]
  refine ⟨?_, ?_, by unfold fixBiggest; simp⟩
  · intro j hj
    rw [hswap j, htop]
    by_cases hjli : j = (findLargestGo d (n - 1) 1 (d.getD 0 0) 0).2
    · rw [if_pos hjli]
      exact h2
    · rw [if_neg hjli]
      by_cases hj0 : j = 0
      · rw [if_pos hj0, h1]
      · rw [if_neg hj0]
        exact h4 j (by omega) (by omega)
  · exact DistinctLive_swap d n 0 _ h0len hlilen (by omega) hlin hdis

theorem removeTop_inv (d : List Nat) (n : Nat) (hn : 1 < n) (hlen : n ≤ d.length)
    (hdis : DistinctLive d n) :
    MaxLive ((d.set 0 (d.getD (findLargestGo d (n - 2) 2 (d.getD 1 0) 1).2 0)).set
        (findLargestGo d (n - 2) 2 (d.getD 1 0) 1).2
        ((d.set 0 (d.getD (findLargestGo d (n - 2) 2 (d.getD 1 0) 1).2 0)).getD (n - 1) 0))
      (n - 1) ∧
    DistinctLive ((d.set 0 (d.getD (findLargestGo d (n - 2) 2 (d.getD 1 0) 1).2 0)).set
        (findLargestGo d (n - 2) 2 (d.getD 1 0) 1).2
        ((d.set 0 (d.getD (findLargestGo d (n - 2) 2 (d.getD 1 0) 1).2 0)).getD (n - 1) 0))
      (n - 1) := by
  obtain ⟨h1, h2, h3, h4⟩ := findLargestGo_spec d (n - 2) 2 (d.getD 1 0) 1 rfl
  have hli1 : 1 ≤ (findLargestGo d (n - 2) 2 (d.getD 1 0) 1).2 := by
    rcases h3 with h | h
    · omega
    · omega
  have hlin : (findLargestGo d (n - 2) 2 (d.getD 1 0) 1).2 < n := by
    rcases h3 with h | h
    · omega
    · omega
  have hlilen : (findLargestGo d (n - 2) 2 (d.getD 1 0) 1).2 < d.length := by omega
  have h0len : 0 < d.length := by omega
  have hread : (d.set 0 (d.getD (findLargestGo d (n - 2) 2 (d.getD 1 0) 1).2 0)).getD
      (n - 1) 0 = d.getD (n - 1) 0 :=
    getD_set_ne (by omega) _
  have hbound : ∀ m, 1 ≤ m → m < n → d.getD m 0 ≤ (findLargestGo d (n - 2) 2 (d.getD 1 0) 1).1 := by
    intro m hm1 hm2
    by_cases hm : m = 1
    · subst hm; exact h2
    · exact h4 m (by omega) (by omega)
  have hspec : ∀ j, ((d.set 0 (d.getD (findLargestGo d (n - 2) 2 (d.getD 1 0) 1).2 0)).set
      (findLargestGo d (n - 2) 2 (d.getD 1 0) 1).2
      ((d.set 0 (d.getD (findLargestGo d (n - 2) 2 (d.getD 1 0) 1).2 0)).getD (n - 1) 0)).getD j 0 =
      if j = (findLargestGo d (n - 2) 2 (d.getD 1 0) 1).2 then d.getD (n - 1) 0
      else if j = 0 then d.getD (findLargestGo d (n - 2) 2 (d.getD 1 0) 1).2 0
      else d.getD j 0 := by
    intro j
    rw [hread]
    exact getD_set_set d 0 _ _ _ h0len hlilen j
  have htop : ((d.set 0 (d.getD (findLargestGo d (n - 2) 2 (d.getD 1 0) 1).2 0)).set
      (findLargestGo d (n - 2) 2 (d.getD 1 0) 1).2
      ((d.set 0 (d.getD (findLargestGo d (n - 2) 2 (d.getD 1 0) 1).2 0)).getD (n - 1) 0)).getD 0 0 =
      (findLargestGo d (n - 2) 2 (d.getD 1 0) 1).1 := by
    rw [hspec 0, if_neg (by omega), if_pos rfl, h1]
  constructor
  · intro j hj
    rw [hspec j, htop]
    by_cases hjli : j = (findLargestGo d (n - 2) 2 (d.getD 1 0) 1).2
    · rw [if_pos hjli]
      exact hbound (n - 1) (by omega) (by omega)
    · rw [if_neg hjli]
      by_cases hj0 : j = 0
      · rw [if_pos hj0, h1]
      · rw [if_neg hj0]
        exact hbound j (by omega) (by omega)
  · intro j k hj hk hjk
    rw [hspec j, hspec k]
    split_ifs <;>
      first
        | omega
        | exact hdis _ _ (by omega) (by omega) (by omega)

theorem sieveFix_inv (p : Nat → Bool) (d : List Nat) (n : Nat)
    (hlen : n ≤ d.length) (hmax : MaxLive d n) (hdis : DistinctLive d n) :
    (¬((sieveGo p n d n 0 false).2.2 = true ∧ 1 < (sieveGo p n d n 0 false).2.1) →
      MaxLive (sieveGo p n d n 0 false).1 (sieveGo p n d n 0 false).2.1 ∧
      DistinctLive (sieveGo p n d n 0 false).1 (sieveGo p n d n 0 false).2.1) ∧
    (((sieveGo p n d n 0 false).2.2 = true ∧ 1 < (sieveGo p n d n 0 false).2.1) →
      MaxLive (fixBiggest (sieveGo p n d n 0 false).1 (sieveGo p n d n 0 false).2.1)
        (sieveGo p n d n 0 false).2.1 ∧
      DistinctLive (fixBiggest (sieveGo p n d n 0 false).1 (sieveGo p n d n 0 false).2.1)
        (sieveGo p n d n 0 false).2.1) := by
  obtain ⟨g1, g2, g3, g4, g5, g6⟩ := sieveGo_inv p n d n 0 false (by omega) (by omega) hlen hdis
  constructor
  · intro hc
    refine ⟨?_, g3⟩
    by_cases hfb : (sieveGo p n d n 0 false).2.2 = true
    · have hn' : (sieveGo p n d n 0 false).2.1 ≤ 1 := by
        by_contra hgt
        exact hc ⟨hfb, by omega⟩
      intro j hj
      have hj0 : j = 0 := by omega
      rw [hj0]
    · have hfb' : (sieveGo p n d n 0 false).2.2 = false := by
        cases hq : (sieveGo p n d n 0 false).2.2
        · rfl
        · exact absurd hq hfb
      intro j hj
      obtain ⟨k, hk, he⟩ := g4 j hj
      rw [he, g6 hfb']
      exact hmax k hk
  · intro hc
    have hfix := fixBiggest_inv (sieveGo p n d n 0 false).1 (sieveGo p n d n 0 false).2.1
      (by omega) (by rw [g2]; omega) g3
    exact ⟨hfix.1, hfix.2.1⟩

theorem notFoundLive_getD (d : List Nat) (n v : Nat)
    (h : foundLive d n v = false) : ∀ j, j < n → j < d.length → d.getD j 0 ≠ v := by
  intro j hj hjl hv
  have : foundLive d n v = true := (foundLive_iff_getD d n v).mpr ⟨j, hj, hjl, hv⟩
  simp [h] at this

theorem add_arrinv (s : Sparse) (n0 : Nat) (hn : s.asize = some n0)
    (hlen : n0 ≤ s.data.length) (hmax : MaxLive s.data n0) (hdis : DistinctLive s.data n0)
    (index : Nat) : ArrStateInv (s.add index) := by
  intro n' hn'
  rcases hres : (s.resize index 0).asize with _ | n1
  · simp only [Sparse.add, hres] at hn'
    exact Option.noConfusion hn'
  · simp only [Sparse.add, hres] at hn' ⊢
    obtain ⟨hm, hlelen, hgd, hroom⟩ := resize_array_spec s n0 index 0 n1 hn hlen hres
    have hm2 : n0 = n1 := hm.symm
    subst hm2
    have hmax1 : MaxLive (s.resize index 0).data n0 := by
      intro j hj; rw [hgd j, hgd 0]; exact hmax j hj
    have hdis1 : DistinctLive (s.resize index 0).data n0 := by
      intro j k hj hk hjk; rw [hgd j, hgd k]; exact hdis j k hj hk hjk
    have hlen1 : n0 ≤ (s.resize index 0).data.length := le_trans hlen hlelen
    by_cases h0 : n0 = 0
    · rw [if_pos h0] at hn' ⊢
      have hn1 : n' = 1 := by simpa using hn'.symm
      subst hn1
      refine ⟨?_, ?_⟩
      · intro j hj
        have hj0 : j = 0 := by omega
        rw [hj0]
      · intro j k hj hk hjk; omega
    · rw [if_neg h0] at hn' ⊢
      have hroom' : n0 < (s.resize index 0).data.length := by
        rcases hroom with h | h
        · exact absurd h h0
        · exact h
      by_cases hfl : foundLive (s.resize index 0).data n0 index = true
      · rw [if_pos hfl] at hn' ⊢
        have hn1 : n' = n0 := by rw [hres] at hn'; simpa using hn'.symm
        subst hn1
        exact ⟨hmax1, hdis1⟩
      · rw [if_neg hfl] at hn' ⊢
        have hfl' : foundLive (s.resize index 0).data n0 index = false := by
          cases hq : foundLive (s.resize index 0).data n0 index
          · rfl
          · exact absurd hq hfl
        have hfresh : ∀ j, j < n0 → (s.resize index 0).data.getD j 0 ≠ index := by
          intro j hj
          exact notFoundLive_getD _ _ _ hfl' j hj (by omega)
        have h0l : 0 < (s.resize index 0).data.length := by omega
        by_cases hbig : (s.resize index 0).data.getD 0 0 < index
        · rw [if_pos hbig] at hn' ⊢
          have hn1 : n' = n0 + 1 := by simpa using hn'.symm
          subst hn1
          have hsp : ∀ j, (((s.resize index 0).data.set 0 index).set n0
              ((s.resize index 0).data.getD 0 0)).getD j 0 =
              if j = n0 then (s.resize index 0).data.getD 0 0
              else if j = 0 then index else (s.resize index 0).data.getD j 0 :=
            getD_set_set _ 0 n0 _ _ h0l hroom'
          have htop : (((s.resize index 0).data.set 0 index).set n0
              ((s.resize index 0).data.getD 0 0)).getD 0 0 = index := by
            rw [hsp 0, if_neg (by omega : ¬ (0 : Nat) = n0), if_pos rfl]
          refine ⟨?_, ?_⟩
          · intro j hj
            rw [hsp j, htop]
            by_cases hjn : j = n0
            · rw [if_pos hjn]
              exact le_of_lt hbig
            · rw [if_neg hjn]
              by_cases hj0 : j = 0
              · rw [if_pos hj0]
              · rw [if_neg hj0]
                exact le_trans (hmax1 j (by omega)) (le_of_lt hbig)
          · intro j k hj hk hjk
            rw [hsp j, hsp k]
            split_ifs <;>
              first
                | omega
                | (exact fun hv => hfresh _ (by omega) hv.symm)
                | (exact fun hv => hfresh _ (by omega) hv)
                | exact hdis1 _ _ (by omega) (by omega) (by omega)
        · rw [if_neg hbig] at hn' ⊢
          have hn1 : n' = n0 + 1 := by simpa using hn'.symm
          subst hn1
          have hsp : ∀ j, ((s.resize index 0).data.set n0 index).getD j 0 =
              if j = n0 then index else (s.resize index 0).data.getD j 0 := by
            intro j
            by_cases hjn : j = n0
            · subst hjn
              rw [if_pos rfl, getD_set_self hroom']
            · rw [if_neg hjn, getD_set_ne (fun h => hjn h.symm)]
          have htop : ((s.resize index 0).data.set n0 index).getD 0 0 =
              (s.resize index 0).data.getD 0 0 := by
            rw [hsp 0, if_neg (by omega : ¬ (0 : Nat) = n0)]
          refine ⟨?_, ?_⟩
          · intro j hj
            rw [hsp j, htop]
            by_cases hjn : j = n0
            · rw [if_pos hjn]
              omega
            · rw [if_neg hjn]
              exact hmax1 j (by omega)
          · intro j k hj hk hjk
            rw [hsp j, hsp k]
            split_ifs <;>
              first
                | omega
                | (exact fun hv => hfresh _ (by omega) hv.symm)
                | (exact fun hv => hfresh _ (by omega) hv)
                | exact hdis1 _ _ (by omega) (by omega) (by omega)

theorem checkedAdd_snd_eq_add (s : Sparse) (index : Nat) :
    (s.checkedAdd index).2 = s.add index := by
  rcases hres : (s.resize index 0).asize with _ | n1
  · simp only [Sparse.checkedAdd, Sparse.add, hres, setBitW]
  · simp only [Sparse.checkedAdd, Sparse.add, hres]
    by_cases h0 : n1 = 0
    · rw [if_pos h0, if_pos h0]
    · rw [if_neg h0, if_neg h0]
      by_cases hfl : foundLive (s.resize index 0).data n1 index = true
      · rw [if_pos hfl, if_pos hfl]
      · rw [if_neg hfl, if_neg hfl]
        by_cases hbig : (s.resize index 0).data.getD 0 0 < index
        · rw [if_pos hbig, if_pos hbig]
        · rw [if_neg hbig, if_neg hbig]

theorem flip_arrinv (s : Sparse) (n0 : Nat) (hn : s.asize = some n0)
    (hlen : n0 ≤ s.data.length) (hmax : MaxLive s.data n0) (hdis : DistinctLive s.data n0)
    (index : Nat) : ArrStateInv (s.flip index) := by
  intro n' hn'
  rcases hres : (s.resize index 0).asize with _ | n1
  · simp only [Sparse.flip, hres] at hn'
    exact Option.noConfusion hn'
  · simp only [Sparse.flip, hres] at hn' ⊢
    obtain ⟨hm, hlelen, hgd, hroom⟩ := resize_array_spec s n0 index 0 n1 hn hlen hres
    have hm2 : n0 = n1 := hm.symm
    subst hm2
    have hmax1 : MaxLive (s.resize index 0).data n0 := by
      intro j hj; rw [hgd j, hgd 0]; exact hmax j hj
    have hdis1 : DistinctLive (s.resize index 0).data n0 := by
      intro j k hj hk hjk; rw [hgd j, hgd k]; exact hdis j k hj hk hjk
    have hlen1 : n0 ≤ (s.resize index 0).data.length := le_trans hlen hlelen
    by_cases habs : (s.resize index 0).data.indexOf index = (s.resize index 0).data.length
    · rw [if_pos habs] at hn' ⊢
      have hfresh : ∀ j, j < (s.resize index 0).data.length →
          (s.resize index 0).data.getD j 0 ≠ index :=
        (indexOf_eq_length_iff_getD _ _).mp habs
      by_cases hcond : 0 < n0 ∧ (s.resize index 0).data.getD 0 0 < index
      · rw [if_pos hcond] at hn' ⊢
        have hn1 : n' = n0 + 1 := by simpa using hn'.symm
        subst hn1
        have hroom' : n0 < (s.resize index 0).data.length := by
          rcases hroom with h | h
          · omega
          · exact h
        have h0l : 0 < (s.resize index 0).data.length := by omega
        have hsp : ∀ j, (((s.resize index 0).data.set n0 ((s.resize index 0).data.getD 0 0)).set
            0 index).getD j 0 =
            if j = 0 then index
            else if j = n0 then (s.resize index 0).data.getD 0 0
            else (s.resize index 0).data.getD j 0 :=
          getD_set_set _ n0 0 _ _ hroom' h0l
        have htop : (((s.resize index 0).data.set n0 ((s.resize index 0).data.getD 0 0)).set
            0 index).getD 0 0 = index := by
          rw [hsp 0, if_pos rfl]
        refine ⟨?_, ?_⟩
        · intro j hj
          rw [hsp j, htop]
          by_cases hj0 : j = 0
          · rw [if_pos hj0]
          · rw [if_neg hj0]
            by_cases hjn : j = n0
            · rw [if_pos hjn]
              exact le_of_lt hcond.2
            · rw [if_neg hjn]
              exact le_trans (hmax1 j (by omega)) (le_of_lt hcond.2)
        · intro j k hj hk hjk
          rw [hsp j, hsp k]
          split_ifs <;>
            first
              | omega
              | (exact fun hv => hfresh _ (by omega) hv.symm)
              | (exact fun hv => hfresh _ (by omega) hv)
              | exact hdis1 _ _ (by omega) (by omega) (by omega)
      · rw [if_neg hcond] at hn' ⊢
        have hn1 : n' = n0 + 1 := by simpa using hn'.symm
        subst hn1
        by_cases hn00 : n0 = 0
        · subst hn00
          refine ⟨?_, ?_⟩
          · intro j hj
            have hj0 : j = 0 := by omega
            rw [hj0]
          · intro j k hj hk hjk; omega
        · have hroom' : n0 < (s.resize index 0).data.length := by
            rcases hroom with h | h
            · omega
            · exact h
          have hle : index ≤ (s.resize index 0).data.getD 0 0 := by
            by_contra hgt
            exact hcond ⟨by omega, by omega⟩
          have hsp : ∀ j, ((s.resize index 0).data.set n0 index).getD j 0 =
              if j = n0 then index else (s.resize index 0).data.getD j 0 := by
            intro j
            by_cases hjn : j = n0
            · subst hjn
              rw [if_pos rfl, getD_set_self hroom']
            · rw [if_neg hjn, getD_set_ne (fun h => hjn h.symm)]
          have htop : ((s.resize index 0).data.set n0 index).getD 0 0 =
              (s.resize index 0).data.getD 0 0 := by
            rw [hsp 0, if_neg (by omega : ¬ (0 : Nat) = n0)]
          refine ⟨?_, ?_⟩
          · intro j hj
            rw [hsp j, htop]
            by_cases hjn : j = n0
            · rw [if_pos hjn]
              exact hle
            · rw [if_neg hjn]
              exact hmax1 j (by omega)
          · intro j k hj hk hjk
            rw [hsp j, hsp k]
            split_ifs <;>
              first
                | omega
                | (exact fun hv => hfresh _ (by omega) hv.symm)
                | (exact fun hv => hfresh _ (by omega) hv)
                | exact hdis1 _ _ (by omega) (by omega) (by omega)
    · rw [if_neg habs] at hn' ⊢
      have hailen : (s.resize index 0).data.indexOf index < (s.resize index 0).data.length :=
        lt_of_le_of_ne List.indexOf_le_length habs
      by_cases hC : (s.resize index 0).data.indexOf index = 0 ∧ 1 < n0
      · rw [if_pos hC] at hn' ⊢
        have hn1 : n' = n0 - 1 := by simpa using hn'.symm
        subst hn1
        exact removeTop_inv (s.resize index 0).data n0 hC.2 hlen1 hdis1
      · rw [if_neg hC] at hn' ⊢
        by_cases hn00 : n0 = 0
        · rw [if_pos hn00] at hn'
          exact Option.noConfusion hn'
        · rw [if_neg hn00] at hn' ⊢
          have hn1 : n' = n0 - 1 := by simpa using hn'.symm
          subst hn1
          by_cases hai0 : (s.resize index 0).data.indexOf index = 0
          · have hn01 : n0 = 1 := by
              rcases Nat.lt_or_ge 1 n0 with h | h
              · exact absurd ⟨hai0, h⟩ hC
              · omega
            refine ⟨?_, ?_⟩
            · intro j hj; omega
            · intro j k hj hk hjk; omega
          · have hsp : ∀ j, ((s.resize index 0).data.set
                ((s.resize index 0).data.indexOf index)
                (if n0 = 0 then 0 else (s.resize index 0).data.getD (n0 - 1) 0)).getD j 0 =
                if j = (s.resize index 0).data.indexOf index
                then (s.resize index 0).data.getD (n0 - 1) 0
                else (s.resize index 0).data.getD j 0 := by
              intro j
              rw [if_neg hn00]
              by_cases hjn : j = (s.resize index 0).data.indexOf index
              · subst hjn
                rw [if_pos rfl, getD_set_self hailen]
              · rw [if_neg hjn, getD_set_ne (fun h => hjn h.symm)]
            have htop : ((s.resize index 0).data.set
                ((s.resize index 0).data.indexOf index)
                (if n0 = 0 then 0 else (s.resize index 0).data.getD (n0 - 1) 0)).getD 0 0 =
                (s.resize index 0).data.getD 0 0 := by
              rw [hsp 0, if_neg (fun h => hai0 h.symm)]
            refine ⟨?_, ?_⟩
            · intro j hj
              rw [hsp j, htop]
              by_cases hjn : j = (s.resize index 0).data.indexOf index
              · rw [if_pos hjn]
                exact hmax1 (n0 - 1) (by omega)
              · rw [if_neg hjn]
                exact hmax1 j (by omega)
            · intro j k hj hk hjk
              rw [hsp j, hsp k]
              split_ifs <;>
                first
                  | omega
                  | exact hdis1 _ _ (by omega) (by omega) (by omega)

theorem remove_arrinv (s : Sparse) (n0 : Nat) (hn : s.asize = some n0)
    (hlen : n0 ≤ s.data.length) (hmax : MaxLive s.data n0) (hdis : DistinctLive s.data n0)
    (index : Nat) : ArrStateInv (s.remove index) := by
  intro n' hn'
  rcases hres : (s.resize index 0).asize with _ | n1
  · simp only [Sparse.remove, hres] at hn'
    exact Option.noConfusion hn'
  · simp only [Sparse.remove, hres] at hn' ⊢
    obtain ⟨hm, hlelen, hgd, hroom⟩ := resize_array_spec s n0 index 0 n1 hn hlen hres
    have hm2 : n0 = n1 := hm.symm
    subst hm2
    have hmax1 : MaxLive (s.resize index 0).data n0 := by
      intro j hj; rw [hgd j, hgd 0]; exact hmax j hj
    have hdis1 : DistinctLive (s.resize index 0).data n0 := by
      intro j k hj hk hjk; rw [hgd j, hgd k]; exact hdis j k hj hk hjk
    have hlen1 : n0 ≤ (s.resize index 0).data.length := le_trans hlen hlelen
    by_cases hfound : (s.resize index 0).data.indexOf index < (s.resize index 0).data.length ∧
        (s.resize index 0).data.indexOf index < n0
    · rw [if_pos hfound] at hn' ⊢
      by_cases hlast : (s.resize index 0).data.indexOf index = n0 - 1
      · rw [if_pos hlast] at hn' ⊢
        have hn1 : n' = n0 - 1 := by simpa using hn'.symm
        subst hn1
        exact ⟨fun j hj => hmax1 j (by omega),
          fun j k hj hk hjk => hdis1 j k (by omega) (by omega) hjk⟩
      · rw [if_neg hlast] at hn' ⊢
        by_cases hC : (s.resize index 0).data.indexOf index = 0 ∧ 1 < n0
        · rw [if_pos hC] at hn' ⊢
          have hn1 : n' = n0 - 1 := by simpa using hn'.symm
          subst hn1
          exact removeTop_inv (s.resize index 0).data n0 hC.2 hlen1 hdis1
        · rw [if_neg hC] at hn' ⊢
          have hn1 : n' = n0 - 1 := by simpa using hn'.symm
          subst hn1
          have hai0 : (s.resize index 0).data.indexOf index ≠ 0 := by
            intro h0
            rcases Nat.lt_or_ge 1 n0 with h | h
            · exact hC ⟨h0, h⟩
            · have := hfound.2
              omega
          have hsp : ∀ j, ((s.resize index 0).data.set
              ((s.resize index 0).data.indexOf index)
              ((s.resize index 0).data.getD (n0 - 1) 0)).getD j 0 =
              if j = (s.resize index 0).data.indexOf index
              then (s.resize index 0).data.getD (n0 - 1) 0
              else (s.resize index 0).data.getD j 0 := by
            intro j
            by_cases hjn : j = (s.resize index 0).data.indexOf index
            · subst hjn
              rw [if_pos rfl, getD_set_self hfound.1]
            · rw [if_neg hjn, getD_set_ne (fun h => hjn h.symm)]
          have htop : ((s.resize index 0).data.set
              ((s.resize index 0).data.indexOf index)
              ((s.resize index 0).data.getD (n0 - 1) 0)).getD 0 0 =
              (s.resize index 0).data.getD 0 0 := by
            rw [hsp 0, if_neg (fun h => hai0 h.symm)]
          refine ⟨?_, ?_⟩
          · intro j hj
            rw [hsp j, htop]
            by_cases hjn : j = (s.resize index 0).data.indexOf index
            · rw [if_pos hjn]
              exact hmax1 (n0 - 1) (by omega)
            · rw [if_neg hjn]
              exact hmax1 j (by omega)
          · intro j k hj hk hjk
            rw [hsp j, hsp k]
            have hlast' : (s.resize index 0).data.indexOf index < n0 - 1 := by
              have := hfound.2
              omega
            split_ifs <;>
              first
                | omega
                | exact hdis1 _ _ (by omega) (by omega) (by omega)
    · rw [if_neg hfound] at hn' ⊢
      have hn1 : n' = n0 := by rw [hres] at hn'; simpa using hn'.symm
      subst hn1
      exact ⟨hmax1, hdis1⟩

theorem resize_room (s : Sparse) (n index cap m : Nat) (hn : s.asize = some n)
    (hlen : n ≤ s.data.length) (hm : (s.resize index cap).asize = some m) :
    n + cap < (s.resize index cap).data.length ∨ (s.data.length = 0 ∧ cap = 0) := by
  obtain ⟨a, d⟩ := s
  have ha : a = some n := hn
  subst ha
  dsimp only at hlen hm ⊢
  simp only [Sparse.resize] at hm ⊢
  by_cases h1 : n + cap < d.length
  · rw [if_pos h1] at hm ⊢
    exact Or.inl h1
  · rw [if_neg h1] at hm ⊢
    by_cases hdeg : d.length = 0 ∧ cap = 0
    · exact Or.inr hdeg
    · left
      have hpos : 0 < d.length + cap := by omega
      by_cases h2 : d.length + cap < 256
      · rw [if_pos h2] at hm ⊢
        simp only [growTo, List.length_append, List.length_replicate]
        omega
      · rw [if_neg h2] at hm ⊢
        by_cases h3 : d.length + cap < (max (d.getD 0 0) index + 32) / 32 ∧
            (d.length + cap) * 2 < 1024
        · rw [if_pos h3] at hm ⊢
          simp only [growTo, List.length_append, List.length_replicate]
          omega
        · rw [if_neg h3] at hm
          exact Option.noConfusion hm

theorem addRangeGo_inv :
    ∀ fuel d n start, 0 < n → n + fuel ≤ d.length → start + fuel ≤ d.getD 0 0 + 1 →
      MaxLive d n → DistinctLive d n →
      MaxLive (addRangeGo fuel d n start).1 (addRangeGo fuel d n start).2 ∧
      DistinctLive (addRangeGo fuel d n start).1 (addRangeGo fuel d n start).2 ∧
      (addRangeGo fuel d n start).2 ≤ n + fuel ∧
      (addRangeGo fuel d n start).1.length = d.length ∧
      (addRangeGo fuel d n start).1.getD 0 0 = d.getD 0 0 := by
  intro fuel
  induction fuel with
  | zero =>
    intro d n start hn0 hroom hbound hmax hdis
    exact ⟨hmax, hdis, le_refl _, rfl, rfl⟩
  | succ f ih =>
    intro d n start hn0 hroom hbound hmax hdis
    by_cases hfl : foundLive d n start = true
    · have hred : addRangeGo (f + 1) d n start = addRangeGo f d n (start + 1) := by
        simp only [addRangeGo, if_pos hfl]
      rw [hred]
      obtain ⟨i1, i2, i3, i4, i5⟩ :=
        ih d n (start + 1) hn0 (by omega) (by omega) hmax hdis
      exact ⟨i1, i2, by omega, i4, i5⟩
    · have hred : addRangeGo (f + 1) d n start =
          addRangeGo f (d.set n start) (n + 1) (start + 1) := by
        simp only [addRangeGo, hfl, if_neg]
        simp
      rw [hred]
      have hnlen : n < d.length := by omega
      have hfresh : ∀ j, j < n → j < d.length → d.getD j 0 ≠ start :=
        notFoundLive_getD d n start (by simpa using hfl)
      have hsp : ∀ j, (d.set n start).getD j 0 =
          if j = n then start else d.getD j 0 := by
        intro j
        by_cases hjn : j = n
        · subst hjn
          rw [if_pos rfl, getD_set_self hnlen]
        · rw [if_neg hjn, getD_set_ne (fun h => hjn h.symm)]
      have htop : (d.set n start).getD 0 0 = d.getD 0 0 := by
        rw [hsp 0, if_neg (by omega : ¬ (0 : Nat) = n)]
      have hmax' : MaxLive (d.set n start) (n + 1) := by
        intro j hj
        rw [hsp j, htop]
        by_cases hjn : j = n
        · rw [if_pos hjn]
          omega
        · rw [if_neg hjn]
          exact hmax j (by omega)
      have hdis' : DistinctLive (d.set n start) (n + 1) := by
        intro j k hj hk hjk
        rw [hsp j, hsp k]
        split_ifs <;>
          first
            | omega
            | (exact fun hv => hfresh _ (by omega) (by omega) hv.symm)
            | (exact fun hv => hfresh _ (by omega) (by omega) hv)
            | exact hdis _ _ (by omega) (by omega) (by omega)
      obtain ⟨i1, i2, i3, i4, i5⟩ := ih (d.set n start) (n + 1) (start + 1)
        (by omega) (by simpa using by omega : n + 1 + f ≤ (d.set n start).length)
        (by rw [htop]; omega) hmax' hdis'
      refine ⟨i1, i2, by omega, ?_, ?_⟩
      · rw [i4]; simp
      · rw [i5, htop]

theorem addRange_arrinv (s : Sparse) (n0 : Nat) (hn : s.asize = some n0)
    (hlen : n0 ≤ s.data.length) (hmax : MaxLive s.data n0) (hdis : DistinctLive s.data n0)
    (start endv : Nat) : ArrStateInv (s.addRange start endv) := by
  intro n' hn'
  by_cases hse : endv ≤ start
  · rw [Sparse.addRange, if_pos hse] at hn' ⊢
    rw [hn] at hn'
    have hn1 : n' = n0 := (Option.some.inj hn').symm
    subst hn1
    exact ⟨hmax, hdis⟩
  · rw [Sparse.addRange, if_neg hse] at hn' ⊢
    rcases hres : (s.resize endv (endv - start - 1)).asize with _ | n1
    · simp only [hres] at hn'
      split at hn' <;> exact Option.noConfusion hn'
    · simp only [hres] at hn' ⊢
      obtain ⟨hm, hlelen, hgd, _⟩ :=
        resize_array_spec s n0 endv (endv - start - 1) n1 hn hlen hres
      have hm2 : n0 = n1 := hm.symm
      subst hm2
      have hmax1 : MaxLive (s.resize endv (endv - start - 1)).data n0 := by
        intro j hj; rw [hgd j, hgd 0]; exact hmax j hj
      have hdis1 : DistinctLive (s.resize endv (endv - start - 1)).data n0 := by
        intro j k hj hk hjk; rw [hgd j, hgd k]; exact hdis j k hj hk hjk
      have hroom := resize_room s n0 endv (endv - start - 1) n0 hn hlen hres
      by_cases hn00 : n0 = 0
      · rw [if_pos hn00] at hn' ⊢
        have hn1 : n' =
            (addRangeGo (endv - 1 - start)
              ((s.resize endv (endv - start - 1)).data.set 0 (endv - 1)) 1 start).2 := by
          simpa using hn'.symm
        subst hn1
        rcases hroom with hroom | ⟨hlen0, hcap0⟩
        · have hfuel : 1 + (endv - 1 - start) ≤
              ((s.resize endv (endv - start - 1)).data.set 0 (endv - 1)).length := by
            simp only [List.length_set]
            omega
          have h0len : 0 < (s.resize endv (endv - start - 1)).data.length := by omega
          have htop0 : ((s.resize endv (endv - start - 1)).data.set 0 (endv - 1)).getD 0 0 =
              endv - 1 := getD_set_self h0len
          obtain ⟨i1, i2, _, _, _⟩ := addRangeGo_inv (endv - 1 - start)
            ((s.resize endv (endv - start - 1)).data.set 0 (endv - 1)) 1 start
            (by omega) hfuel (by rw [htop0]; omega)
            (fun j hj => by
              have hj0 : j = 0 := by omega
              rw [hj0])
            (fun j k hj hk hjk => by omega)
          exact ⟨i1, i2⟩
        · have hfuel0 : endv - 1 - start = 0 := by omega
          rw [hfuel0]
          refine ⟨?_, ?_⟩
          · intro j hj
            have hj0 : j = 0 := by
              have : (addRangeGo 0
                ((s.resize endv (endv - start - 1)).data.set 0 (endv - 1)) 1 start).2 = 1 :=
                rfl
              omega
            rw [hj0]
          · intro j k hj hk hjk
            have : (addRangeGo 0
                ((s.resize endv (endv - start - 1)).data.set 0 (endv - 1)) 1 start).2 = 1 :=
              rfl
            omega
      · rw [if_neg hn00] at hn' ⊢
        have hroom' : n0 + (endv - start - 1) <
            (s.resize endv (endv - start - 1)).data.length := by
          rcases hroom with h | ⟨h0, _⟩
          · exact h
          · omega
        by_cases hfl : foundLive (s.resize endv (endv - start - 1)).data n0 (endv - 1) = true
        · rw [if_pos hfl] at hn' ⊢
          have hn1 : n' = (addRangeGo (endv - 1 - start)
              (s.resize endv (endv - start - 1)).data n0 start).2 := by
            simpa using hn'.symm
          subst hn1
          have hble : endv - 1 ≤ (s.resize endv (endv - start - 1)).data.getD 0 0 := by
            obtain ⟨j, hj, hjl, hv⟩ := (foundLive_iff_getD _ _ _).mp hfl
            rw [← hv]
            exact hmax1 j hj
          obtain ⟨i1, i2, _, _, _⟩ := addRangeGo_inv (endv - 1 - start)
            (s.resize endv (endv - start - 1)).data n0 start
            (by omega) (by omega) (by omega) hmax1 hdis1
          exact ⟨i1, i2⟩
        · rw [if_neg hfl] at hn' ⊢
          have hfresh : ∀ j, j < n0 → j < (s.resize endv (endv - start - 1)).data.length →
              (s.resize endv (endv - start - 1)).data.getD j 0 ≠ endv - 1 :=
            notFoundLive_getD _ n0 (endv - 1) (by simpa using hfl)
          by_cases hbig : (s.resize endv (endv - start - 1)).data.getD 0 0 < endv - 1
          · rw [if_pos hbig] at hn' ⊢
            have hn1 : n' = (addRangeGo (endv - 1 - start)
                (((s.resize endv (endv - start - 1)).data.set 0 (endv - 1)).set n0
                  ((s.resize endv (endv - start - 1)).data.getD 0 0)) (n0 + 1) start).2 := by
              simpa using hn'.symm
            subst hn1
            have hsp : ∀ j, (((s.resize endv (endv - start - 1)).data.set 0 (endv - 1)).set n0
                ((s.resize endv (endv - start - 1)).data.getD 0 0)).getD j 0 =
                if j = n0 then (s.resize endv (endv - start - 1)).data.getD 0 0
                else if j = 0 then endv - 1
                else (s.resize endv (endv - start - 1)).data.getD j 0 :=
              getD_set_set _ 0 n0 _ _ (by omega) (by omega)
            have htop : (((s.resize endv (endv - start - 1)).data.set 0 (endv - 1)).set n0
                ((s.resize endv (endv - start - 1)).data.getD 0 0)).getD 0 0 = endv - 1 := by
              rw [hsp 0, if_neg (by omega : ¬ (0 : Nat) = n0), if_pos rfl]
            have hmax' : MaxLive (((s.resize endv (endv - start - 1)).data.set 0
                (endv - 1)).set n0 ((s.resize endv (endv - start - 1)).data.getD 0 0))
                (n0 + 1) := by
              intro j hj
              rw [hsp j, htop]
              by_cases hjn : j = n0
              · rw [if_pos hjn]
                omega
              · rw [if_neg hjn]
                by_cases hj0 : j = 0
                · rw [if_pos hj0]
                · rw [if_neg hj0]
                  exact le_trans (hmax1 j (by omega)) (by omega)
            have hdis' : DistinctLive (((s.resize endv (endv - start - 1)).data.set 0
                (endv - 1)).set n0 ((s.resize endv (endv - start - 1)).data.getD 0 0))
                (n0 + 1) := by
              intro j k hj hk hjk
              rw [hsp j, hsp k]
              split_ifs <;>
                first
                  | omega
                  | (exact fun hv => hfresh _ (by omega) (by omega) hv.symm)
                  | (exact fun hv => hfresh _ (by omega) (by omega) hv)
                  | exact hdis1 _ _ (by omega) (by omega) (by omega)
            obtain ⟨i1, i2, _, _, _⟩ := addRangeGo_inv (endv - 1 - start)
              (((s.resize endv (endv - start - 1)).data.set 0 (endv - 1)).set n0
                ((s.resize endv (endv - start - 1)).data.getD 0 0)) (n0 + 1) start
              (by omega)
              (by simp only [List.length_set]; omega)
              (by rw [htop]; omega) hmax' hdis'
            exact ⟨i1, i2⟩
          · rw [if_neg hbig] at hn' ⊢
            have hn1 : n' = (addRangeGo (endv - 1 - start)
                ((s.resize endv (endv - start - 1)).data.set n0 (endv - 1))
                (n0 + 1) start).2 := by
              simpa using hn'.symm
            subst hn1
            have hsp : ∀ j, ((s.resize endv (endv - start - 1)).data.set n0
                (endv - 1)).getD j 0 =
                if j = n0 then endv - 1
                else (s.resize endv (endv - start - 1)).data.getD j 0 := by
              intro j
              by_cases hjn : j = n0
              · subst hjn
                rw [if_pos rfl, getD_set_self (by omega)]
              · rw [if_neg hjn, getD_set_ne (fun h => hjn h.symm)]
            have htop : ((s.resize endv (endv - start - 1)).data.set n0
                (endv - 1)).getD 0 0 =
                (s.resize endv (endv - start - 1)).data.getD 0 0 := by
              rw [hsp 0, if_neg (by omega : ¬ (0 : Nat) = n0)]
            have hmax' : MaxLive ((s.resize endv (endv - start - 1)).data.set n0
                (endv - 1)) (n0 + 1) := by
              intro j hj
              rw [hsp j, htop]
              by_cases hjn : j = n0
              · rw [if_pos hjn]
                omega
              · rw [if_neg hjn]
                exact hmax1 j (by omega)
            have hdis' : DistinctLive ((s.resize endv (endv - start - 1)).data.set n0
                (endv - 1)) (n0 + 1) := by
              intro j k hj hk hjk
              rw [hsp j, hsp k]
              split_ifs <;>
                first
                  | omega
                  | (exact fun hv => hfresh _ (by omega) (by omega) hv.symm)
                  | (exact fun hv => hfresh _ (by omega) (by omega) hv)
                  | exact hdis1 _ _ (by omega) (by omega) (by omega)
            obtain ⟨i1, i2, _, _, _⟩ := addRangeGo_inv (endv - 1 - start)
              ((s.resize endv (endv - start - 1)).data.set n0 (endv - 1)) (n0 + 1) start
              (by omega)
              (by simp only [List.length_set]; omega)
              (by rw [htop]; omega) hmax' hdis'
            exact ⟨i1, i2⟩

theorem removeRange_arrinv (s : Sparse) (n0 : Nat) (hn : s.asize = some n0)
    (hlen : n0 ≤ s.data.length) (hmax : MaxLive s.data n0) (hdis : DistinctLive s.data n0)
    (start endv : Nat) : ArrStateInv (s.removeRange start endv) := by
  intro n' hn'
  by_cases hse : endv ≤ start
  · rw [Sparse.removeRange, if_pos hse] at hn' ⊢
    rw [hn] at hn'
    have hn1 : n' = n0 := (Option.some.inj hn').symm
    subst hn1
    exact ⟨hmax, hdis⟩
  · simp only [Sparse.removeRange, if_neg hse, hn] at hn' ⊢
    obtain ⟨hfix1, hfix2⟩ :=
      sieveFix_inv (fun v => start ≤ v && v < endv) s.data n0 hlen hmax hdis
    by_cases hc : (sieveGo (fun v => start ≤ v && v < endv) n0 s.data n0 0 false).2.2 = true ∧
        1 < (sieveGo (fun v => start ≤ v && v < endv) n0 s.data n0 0 false).2.1
    · rw [if_pos hc] at hn' ⊢
      have hn1 : n' =
          (sieveGo (fun v => start ≤ v && v < endv) n0 s.data n0 0 false).2.1 := by
        simpa using hn'.symm
      subst hn1
      exact hfix2 hc
    · rw [if_neg hc] at hn' ⊢
      have hn1 : n' =
          (sieveGo (fun v => start ≤ v && v < endv) n0 s.data n0 0 false).2.1 := by
        simpa using hn'.symm
      subst hn1
      exact hfix1 hc

theorem differenceArr_arrinv (s : Sparse) (n0 : Nat) (hn : s.asize = some n0)
    (hlen : n0 ≤ s.data.length) (hmax : MaxLive s.data n0) (hdis : DistinctLive s.data n0)
    (hasO : Nat → Bool) : ArrStateInv (s.differenceArr hasO) := by
  intro n' hn'
  simp only [Sparse.differenceArr, hn] at hn' ⊢
  obtain ⟨hfix1, hfix2⟩ := sieveFix_inv hasO s.data n0 hlen hmax hdis
  by_cases hc : (sieveGo hasO n0 s.data n0 0 false).2.2 = true ∧
      1 < (sieveGo hasO n0 s.data n0 0 false).2.1
  · rw [if_pos hc] at hn' ⊢
    have hn1 : n' = (sieveGo hasO n0 s.data n0 0 false).2.1 := by
      simpa using hn'.symm
    subst hn1
    exact hfix2 hc
  · rw [if_neg hc] at hn' ⊢
    have hn1 : n' = (sieveGo hasO n0 s.data n0 0 false).2.1 := by
      simpa using hn'.symm
    subst hn1
    exact hfix1 hc

theorem intersectionArr_arrinv (s : Sparse) (n0 : Nat) (hn : s.asize = some n0)
    (hlen : n0 ≤ s.data.length) (hdis : DistinctLive s.data n0)
    (hasO : Nat → Bool) : ArrStateInv (s.intersectionArr hasO) := by
  intro n' hn'
  simp only [Sparse.intersectionArr, hn] at hn' ⊢
  have hn1 : n' = (interGo hasO n0 s.data n0 0).2 := by
    simpa using hn'.symm
  subst hn1
  obtain ⟨i1, i2, _, _⟩ := interGo_inv hasO n0 s.data n0 0 (by omega) (by omega) hlen
    (fun j hj => absurd hj (by omega)) hdis
  exact ⟨i1, i2⟩

/-- C1: for every `SparseTypedFastBitSet` in array mode whose live window
fits the buffer and currently satisfies the invariant, each of the eight
mutating operations `add`, `checkedAdd`, `flip`, `remove`, `addRange`,
`removeRange`, `difference` (array-mode path) and `intersection`
(array-mode path) preserves it: whenever the result is still in array
mode, slot 0 of the backing array holds the maximum of the live entries
(`MaxLive`) and the live slots hold pairwise distinct elements
(`DistinctLive`), i.e. the remaining slots hold the other elements in
arbitrary order. -/
theorem C1_array_mode_invariant_preserved (s : Sparse) (n0 : Nat)
    (hn : s.asize = some n0) (hlen : n0 ≤ s.data.length)
    (hmax : MaxLive s.data n0) (hdis : DistinctLive s.data n0) :
    (∀ index, ArrStateInv (s.add index)) ∧
    (∀ index, ArrStateInv (s.checkedAdd index).2) ∧
    (∀ index, ArrStateInv (s.flip index)) ∧
    (∀ index, ArrStateInv (s.remove index)) ∧
    (∀ start endv, ArrStateInv (s.addRange start endv)) ∧
    (∀ start endv, ArrStateInv (s.removeRange start endv)) ∧
    (∀ hasO, ArrStateInv (s.differenceArr hasO)) ∧
    (∀ hasO, ArrStateInv (s.intersectionArr hasO)) := by
  refine ⟨fun index => add_arrinv s n0 hn hlen hmax hdis index,
    fun index => ?_,
    fun index => flip_arrinv s n0 hn hlen hmax hdis index,
    fun index => remove_arrinv s n0 hn hlen hmax hdis index,
    fun start endv => addRange_arrinv s n0 hn hlen hmax hdis start endv,
    fun start endv => removeRange_arrinv s n0 hn hlen hmax hdis start endv,
    fun hasO => differenceArr_arrinv s n0 hn hlen hmax hdis hasO,
    fun hasO => intersectionArr_arrinv s n0 hn hlen hdis hasO⟩
  rw [checkedAdd_snd_eq_add]
  exact add_arrinv s n0 hn hlen hmax hdis index

theorem C1_array_mode_invariant_preserved_witness :
    MaxLive [7, 3] 2 ∧ DistinctLive [7, 3] 2 ∧
    ArrStateInv (Sparse.add ⟨some 2, [7, 3]⟩ 9) := by
  have hmax : MaxLive [7, 3] 2 := by
    intro j hj
    interval_cases j <;> decide
  have hdis : DistinctLive [7, 3] 2 := by
    intro j k hj hk hjk
    interval_cases j <;> interval_cases k <;> first | omega | decide
  exact ⟨hmax, hdis,
    (C1_array_mode_invariant_preserved ⟨some 2, [7, 3]⟩ 2 rfl (by decide) hmax hdis).1 9⟩

/-- C3: on an array-mode sparse set whose backing array is full
(`arraySize + capacity >= data.length`, the guard that routes a
capacity-affecting mutation into the growth/convert logic of `resize`),
`resize` grows the buffer by the 2x policy and stays in Array mode
whenever the buffer after growth would stay under 256 words, and it
converts to bitset mode only when the buffer after growth would be at
least 256 words, the conversion replaying every stored value as a set
bit. -/
theorem C3_resize_growth_policy (s : Sparse) (n cap index : Nat) (hn : s.asize = some n)
    (hfull : s.data.length ≤ n + cap)
    (hmax : ∀ v ∈ s.data.take n, v ≤ s.data.getD 0 0) :
    ((s.data.length + cap) * 2 < 256 →
      (s.resize index cap).asize = some n ∧
      (s.resize index cap).data = growTo s.data ((s.data.length + cap) * 2)) ∧
    ((s.resize index cap).asize = none →
      256 ≤ (s.data.length + cap) * 2 ∧
      ∀ v, (hasBitW (s.resize index cap).data v = true ↔ v ∈ s.data.take n)) := by
  obtain ⟨a, d⟩ := s
  have ha : a = some n := hn
  subst ha
  dsimp only at hfull hmax ⊢
  simp only [Sparse.resize]
  have h1 : ¬ (n + cap < d.length) := by omega
  rw [if_neg h1]
  by_cases h2 : d.length + cap < 256
  · rw [if_pos h2]
    exact ⟨fun _ => ⟨rfl, rfl⟩, fun hno => by simp at hno⟩
  · rw [if_neg h2]
    by_cases h3 : d.length + cap < (max (d.getD 0 0) index + 32) / 32 ∧
        (d.length + cap) * 2 < 1024
    · rw [if_pos h3]
      exact ⟨fun hlt => absurd hlt (by omega), fun hno => by simp at hno⟩
    · rw [if_neg h3]
      refine ⟨fun hlt => absurd hlt (by omega), fun _ => ⟨by omega, fun v => ?_⟩⟩
      have hfit : ∀ e ∈ d.take n,
          e / 32 < (List.replicate ((max (d.getD 0 0) index + 32) / 32 * 2) 0).length := by
        intro e he
        rw [List.length_replicate]
        have hle : e ≤ d.getD 0 0 := hmax e he
        have hdv : e / 32 ≤ d.getD 0 0 / 32 := Nat.div_le_div_right hle
        have hmx : d.getD 0 0 ≤ max (d.getD 0 0) index := le_max_left _ _
        have hdv2 : d.getD 0 0 / 32 ≤ max (d.getD 0 0) index / 32 :=
          Nat.div_le_div_right hmx
        omega
      rw [hasBitW_replayBits _ _ hfit v, hasBitW_replicate_zero]
      simp

/-- C3 witness: the adaptive set holding `{0,...,7}` has a full 8-slot
backing array; `resize 9 0` grows it to 16 slots and stays in Array mode. -/
theorem C3_resize_growth_policy_witness :
    (((sparseOfList [0,1,2,3,4,5,6,7]).data.length + 0) * 2 < 256 →
      ((sparseOfList [0,1,2,3,4,5,6,7]).resize 9 0).asize = some 8 ∧
      ((sparseOfList [0,1,2,3,4,5,6,7]).resize 9 0).data
        = growTo (sparseOfList [0,1,2,3,4,5,6,7]).data
            (((sparseOfList [0,1,2,3,4,5,6,7]).data.length + 0) * 2)) ∧
    (((sparseOfList [0,1,2,3,4,5,6,7]).resize 9 0).asize = none →
      256 ≤ ((sparseOfList [0,1,2,3,4,5,6,7]).data.length + 0) * 2 ∧
      ∀ v, (hasBitW ((sparseOfList [0,1,2,3,4,5,6,7]).resize 9 0).data v = true ↔
        v ∈ (sparseOfList [0,1,2,3,4,5,6,7]).data.take 8)) :=
  C3_resize_growth_policy (sparseOfList [0,1,2,3,4,5,6,7]) 8 0 9
    (by decide) (by decide) (by decide)

/-- C6: building the adaptive set from `[10,1,4,3,2,5]` (added in that
order) yields `array() = [10,1,4,3,2,5]` with 10 cached at slot 0, and an
in-place `difference` against a set whose membership is exactly
`{1, 5, 10}` leaves `array() = [4,3,2]`. -/
theorem C6_sparse_maxcache_scenario :
    (sparseOfList [10,1,4,3,2,5]).arrayFn = [10,1,4,3,2,5] ∧
    (sparseOfList [10,1,4,3,2,5]).data.getD 0 0 = 10 ∧
    ((sparseOfList [10,1,4,3,2,5]).differenceArr
        (fun v => v == 1 || v == 5 || v == 10)).arrayFn = [4,3,2] := by
  decide

theorem getD_oob {l : List Nat} {k : Nat} (h : l.length ≤ k) : l.getD k 0 = 0 := by
  rw [List.getD_eq_getElem?_getD, List.getElem?_eq_none h]
  rfl

theorem getD_lt_of_entries {w : List Nat} (hw : ∀ x ∈ w, x < 2 ^ 32) (k : Nat) :
    w.getD k 0 < 2 ^ 32 := by
  by_cases hk : k < w.length
  · have := hw (w[k]) (List.getElem_mem hk)
    simpa [List.getD_eq_getElem?_getD, List.getElem?_eq_getElem hk] using this
  · rw [getD_oob (by omega)]
    norm_num

theorem equalsW_true_iff (w o : List Nat) :
    equalsW w o = true ↔ ∀ k, w.getD k 0 = o.getD k 0 := by
  rw [equalsW, Bool.and_eq_true]
  constructor
  · rintro ⟨h1, h2⟩ k
    simp only [List.all_eq_true, List.mem_range, beq_iff_eq] at h1
    by_cases hk : k < min w.length o.length
    · exact h1 k hk
    · rcases Nat.lt_trichotomy w.length o.length with hlt | heq | hgt
      · rw [if_pos hlt] at h2
        simp only [List.all_eq_true, List.mem_range, beq_iff_eq] at h2
        have hwk : w.getD k 0 = 0 := getD_oob (by omega)
        by_cases hko : k < o.length
        · have h3 := h2 (k - w.length) (by omega)
          rw [show w.length + (k - w.length) = k by omega] at h3
          rw [hwk, h3]
        · rw [hwk, getD_oob (by omega)]
      · rw [getD_oob (by omega), getD_oob (by omega)]
      · rw [if_neg (by omega), if_pos hgt] at h2
        simp only [List.all_eq_true, List.mem_range, beq_iff_eq] at h2
        have hok : o.getD k 0 = 0 := getD_oob (by omega)
        by_cases hkw : k < w.length
        · have h3 := h2 (k - o.length) (by omega)
          rw [show o.length + (k - o.length) = k by omega] at h3
          rw [hok, h3]
        · rw [hok, getD_oob (by omega)]
  · intro h
    constructor
    · simp only [List.all_eq_true, List.mem_range, beq_iff_eq]
      intro k _
      exact h k
    · split_ifs with h1 h2
      · simp only [List.all_eq_true, List.mem_range, beq_iff_eq]
        intro k _
        have h3 := h (w.length + k)
        rw [getD_oob (show w.length ≤ w.length + k by omega)] at h3
        exact h3.symm
      · simp only [List.all_eq_true, List.mem_range, beq_iff_eq]
        intro k _
        have h3 := h (o.length + k)
        rw [getD_oob (show o.length ≤ o.length + k by omega)] at h3
        exact h3
      · rfl

theorem word_eq_of_hasBit_eq (w o : List Nat) (hw : ∀ x ∈ w, x < 2 ^ 32)
    (ho : ∀ x ∈ o, x < 2 ^ 32) (h : ∀ i, hasBitW w i = hasBitW o i) (k : Nat) :
    w.getD k 0 = o.getD k 0 := by
  apply Nat.eq_of_testBit_eq
  intro j
  by_cases hj : j < 32
  · have h3 := h (k * 32 + j)
    rw [hasBitW_eq_testBit, hasBitW_eq_testBit,
      show (k * 32 + j) / 32 = k by omega, show (k * 32 + j) % 32 = j by omega] at h3
    exact h3
  · have h1 : w.getD k 0 < 2 ^ j :=
      lt_of_lt_of_le (getD_lt_of_entries hw k) (Nat.pow_le_pow_right (by omega) (by omega))
    have h2 : o.getD k 0 < 2 ^ j :=
      lt_of_lt_of_le (getD_lt_of_entries ho k) (Nat.pow_le_pow_right (by omega) (by omega))
    rw [Nat.testBit_lt_two_pow h1, Nat.testBit_lt_two_pow h2]

/-- C8: for dense bitsets whose buffers hold 32-bit words, `equals` returns
`true` exactly when the two sets have the same members, whatever the two
buffer lengths are: the common prefix is compared wordwise and the longer
buffer's extra words must all be zero, so trailing zero words never affect
the verdict. -/
theorem C8_equals_iff_same_members (w o : List Nat)
    (hw : ∀ x ∈ w, x < 2 ^ 32) (ho : ∀ x ∈ o, x < 2 ^ 32) :
    (equalsW w o = true ↔ ∀ i, hasBitW w i = hasBitW o i) := by
  rw [equalsW_true_iff]
  constructor
  · intro h i
    rw [hasBitW_eq_testBit, hasBitW_eq_testBit, h]
  · exact word_eq_of_hasBit_eq w o hw ho

/-- C8 witness: the buffers `[3, 0]` and `[3]` (the set `{0, 1}` with and
without a trailing zero word) are well-formed and the equivalence holds for
them. -/
theorem C8_equals_iff_same_members_witness :
    (∀ x ∈ [3, 0], x < 2 ^ 32) ∧ (∀ x ∈ [3], x < 2 ^ 32) ∧
    (equalsW [3, 0] [3] = true ↔ ∀ i, hasBitW [3, 0] i = hasBitW [3] i) :=
  ⟨by decide, by decide, C8_equals_iff_same_members [3, 0] [3] (by decide) (by decide)⟩

/-- C2: refuted on the `removeRange` half.  On a dense set holding `{255}`
in an 8-word (256-bit) buffer, `removeRange(200, 900)` keeps `255` as a
member even though `200 ≤ 255 < 900`: the source clamps `end` to
`(words.length << 5) - 1 = 255`, so the last index representable in the
current buffer is never removed. -/
theorem C2_removeRange_misses_last_representable_bit :
    (200 ≤ 255 ∧ 255 < 900) ∧
    hasBitW (addW (List.replicate 8 0) 255) 255 = true ∧
    hasBitW (removeRangeW (addW (List.replicate 8 0) 255) 200 900) 255 = true := by
  decide

theorem getD_mapIdx (l : List Nat) (f : Nat → Nat → Nat) (k : Nat) :
    (l.mapIdx f).getD k 0 = if k < l.length then f k (l.getD k 0) else 0 := by
  by_cases hk : k < l.length
  · rw [if_pos hk, List.getD_eq_getElem?_getD, List.getElem?_mapIdx,
      List.getElem?_eq_getElem hk]
    simp [List.getD_eq_getElem?_getD, List.getElem?_eq_getElem hk]
  · rw [if_neg hk, getD_oob (by simp only [List.length_mapIdx]; omega)]

theorem resizeW_getD (w : List Nat) (index : Int) (k : Nat) :
    (resizeW w index).getD k 0 = w.getD k 0 := by
  rw [resizeW]
  split
  · rfl
  · exact getD_growTo _ _ _

theorem difference2W_len (w o : List Nat) :
    w.length ≤ (resizeW o ((w.length : Int) * 32 - 1)).length := by
  by_cases h : ((w.length : Int) * 32 - 1 < (o.length : Int) * 32)
  · rw [resizeW, if_pos h]
    have h2 : (w.length : Int) ≤ (o.length : Int) := by omega
    exact_mod_cast h2
  · rw [resizeW, if_neg h]
    simp only [growTo, List.length_append, List.length_replicate]
    omega

theorem testBit_and_not (a b : Nat) {j : Nat} (hj : j < 32) :
    (a &&& (4294967295 ^^^ b)).testBit j = (a.testBit j && !(b.testBit j)) := by
  rw [Nat.testBit_and, Nat.testBit_xor,
    show (4294967295 : Nat) = 2 ^ 32 - 1 by norm_num,
    Nat.testBit_two_pow_sub_one]
  simp [hj]

theorem difference2W_members (w o : List Nat) (i : Nat) :
    hasBitW (difference2W w o) i = (hasBitW w i && !hasBitW o i) := by
  have hj : i % 32 < 32 := Nat.mod_lt _ (by norm_num)
  rw [hasBitW_eq_testBit, hasBitW_eq_testBit, hasBitW_eq_testBit]
  simp only [difference2W]
  rw [getD_mapIdx]
  by_cases h1 : i / 32 < (resizeW o ((w.length : Int) * 32 - 1)).length
  · rw [if_pos h1]
    by_cases h2 : i / 32 < min w.length o.length
    · rw [if_pos h2, resizeW_getD, testBit_and_not _ _ hj]
    · rw [if_neg h2]
      by_cases h3 : i / 32 < w.length
      · rw [if_pos h3, getD_oob (show o.length ≤ i / 32 by omega)]
        simp
      · rw [if_neg h3, getD_oob (show w.length ≤ i / 32 by omega)]
        simp
  · rw [if_neg h1]
    have hwlen := difference2W_len w o
    rw [getD_oob (show w.length ≤ i / 32 by omega)]
    simp

theorem differenceW_members (w o : List Nat) (i : Nat) :
    hasBitW (differenceW w o) i = (hasBitW w i && !hasBitW o i) := by
  have hj : i % 32 < 32 := Nat.mod_lt _ (by norm_num)
  rw [hasBitW_eq_testBit, hasBitW_eq_testBit, hasBitW_eq_testBit]
  simp only [differenceW]
  rw [getD_mapIdx]
  by_cases h1 : i / 32 < w.length
  · rw [if_pos h1]
    by_cases h2 : i / 32 < min w.length o.length
    · rw [if_pos h2, testBit_and_not _ _ hj]
    · rw [if_neg h2, getD_oob (show o.length ≤ i / 32 by omega)]
      simp
  · rw [if_neg h1, getD_oob (show w.length ≤ i / 32 by omega)]
    simp

theorem sieveGo_le (p : Nat → Bool) :
    ∀ fuel d n i fb, (sieveGo p fuel d n i fb).2.1 ≤ n ∧
      (sieveGo p fuel d n i fb).1.length = d.length := by
  intro fuel
  induction fuel with
  | zero =>
    intro d n i fb
    exact ⟨le_refl _, rfl⟩
  | succ f ih =>
    intro d n i fb
    by_cases hp : p (d.getD i 0) = true
    · have hred : sieveGo p (f + 1) d n i fb =
          sieveGo p f (d.set i (d.getD (n - 1) 0)) (n - 1) i (fb || i == 0) := by
        simp only [sieveGo, if_pos hp]
      rw [hred]
      obtain ⟨i1, i2⟩ := ih (d.set i (d.getD (n - 1) 0)) (n - 1) i (fb || i == 0)
      refine ⟨by omega, ?_⟩
      rw [i2]
      simp
    · have hred : sieveGo p (f + 1) d n i fb = sieveGo p f d n (i + 1) fb := by
        simp only [sieveGo, hp, if_neg, Bool.false_eq_true, not_false_eq_true]
      rw [hred]
      exact ih d n (i + 1) fb

theorem sieveGo_mem (p : Nat → Bool) :
    ∀ fuel d n i fb, fuel = n - i → i ≤ n → n ≤ d.length →
      (∀ j, j < i → p (d.getD j 0) = false) →
      ∀ v, ((∃ j, j < (sieveGo p fuel d n i fb).2.1 ∧
          (sieveGo p fuel d n i fb).1.getD j 0 = v) ↔
        ((∃ j, j < n ∧ d.getD j 0 = v) ∧ p v = false)) := by
  intro fuel
  induction fuel with
  | zero =>
    intro d n i fb hfuel hin hlen hpre v
    have hieq : i = n := by omega
    subst hieq
    constructor
    · rintro ⟨j, hj, hv⟩
      exact ⟨⟨j, hj, hv⟩, by rw [← hv]; exact hpre j hj⟩
    · rintro ⟨⟨j, hj, hv⟩, _⟩
      exact ⟨j, hj, hv⟩
  | succ f ih =>
    intro d n i fb hfuel hin hlen hpre v
    have hin' : i < n := by omega
    by_cases hp : p (d.getD i 0) = true
    · have hred : sieveGo p (f + 1) d n i fb =
          sieveGo p f (d.set i (d.getD (n - 1) 0)) (n - 1) i (fb || i == 0) := by
        simp only [sieveGo, if_pos hp]
      have hsp : ∀ j, (d.set i (d.getD (n - 1) 0)).getD j 0 =
          if j = i then d.getD (n - 1) 0 else d.getD j 0 := by
        intro j
        by_cases hji : j = i
        · subst hji
          rw [if_pos rfl, getD_set_self (by omega)]
        · rw [if_neg hji, getD_set_ne (fun h => hji h.symm)]
      rw [hred, ih (d.set i (d.getD (n - 1) 0)) (n - 1) i (fb || i == 0)
        (by omega) (by omega) (by simp only [List.length_set]; omega)
        (fun j hj => by rw [hsp j, if_neg (by omega : ¬ j = i)]; exact hpre j hj)]
      constructor
      · rintro ⟨⟨j, hj, hv⟩, hpv⟩
        refine ⟨?_, hpv⟩
        rw [hsp j] at hv
        by_cases hji : j = i
        · rw [if_pos hji] at hv
          exact ⟨n - 1, by omega, hv⟩
        · rw [if_neg hji] at hv
          exact ⟨j, by omega, hv⟩
      · rintro ⟨⟨j, hj, hv⟩, hpv⟩
        refine ⟨?_, hpv⟩
        have hvne : d.getD i 0 ≠ v := by
          intro h
          rw [h, hpv] at hp
          cases hp
        by_cases hji : j = i
        · rw [hji] at hv
          exact absurd hv hvne
        · by_cases hjn : j = n - 1
          · have hine : i ≠ n - 1 := fun h => hji (by omega)
            refine ⟨i, by omega, ?_⟩
            rw [hsp i, if_pos rfl]
            rw [hjn] at hv
            exact hv
          · exact ⟨j, by omega, by rw [hsp j, if_neg hji]; exact hv⟩
    · have hred : sieveGo p (f + 1) d n i fb = sieveGo p f d n (i + 1) fb := by
        simp only [sieveGo, hp, if_neg, Bool.false_eq_true, not_false_eq_true]
      rw [hred, ih d n (i + 1) fb (by omega) (by omega) hlen ?_]
      intro j hj
      by_cases hji : j = i
      · rw [hji]
        exact Bool.not_eq_true _ ▸ (by simpa using hp)
      · exact hpre j (by omega)

theorem swap_mem (d : List Nat) (n a b : Nat) (ha : a < n) (hb : b < n)
    (hlen : n ≤ d.length) (v : Nat) :
    ((∃ j, j < n ∧ ((d.set a (d.getD b 0)).set b (d.getD a 0)).getD j 0 = v) ↔
      (∃ j, j < n ∧ d.getD j 0 = v)) := by
  constructor
  · rintro ⟨j, hj, hv⟩
    rw [getD_swap_spec d a b (by omega) (by omega) j] at hv
    split_ifs at hv
    · exact ⟨a, ha, hv⟩
    · exact ⟨b, hb, hv⟩
    · exact ⟨j, hj, hv⟩
  · rintro ⟨j, hj, hv⟩
    by_cases hja : j = a
    · refine ⟨b, hb, ?_⟩
      rw [getD_swap_spec d a b (by omega) (by omega) b, if_pos rfl]
      rw [hja] at hv
      exact hv
    · by_cases hjb : j = b
      · refine ⟨a, ha, ?_⟩
        rw [getD_swap_spec d a b (by omega) (by omega) a]
        rw [hjb] at hv
        by_cases hab : a = b
        · rw [if_pos hab, hab]
          exact hv
        · rw [if_neg hab, if_pos rfl]
          exact hv
      · refine ⟨j, hj, ?_⟩
        rw [getD_swap_spec d a b (by omega) (by omega) j, if_neg hjb, if_neg hja]
        exact hv

theorem length_fixBiggest (d : List Nat) (n : Nat) :
    (fixBiggest d n).length = d.length := by
  simp [fixBiggest]

theorem fixBiggest_mem (d : List Nat) (n : Nat) (hn : 1 ≤ n) (hlen : n ≤ d.length)
    (v : Nat) :
    ((∃ j, j < n ∧ (fixBiggest d n).getD j 0 = v) ↔ (∃ j, j < n ∧ d.getD j 0 = v)) := by
  obtain ⟨h1, h2, h3, h4⟩ := findLargestGo_spec d (n - 1) 1 (d.getD 0 0) 0 rfl
  have hli : (findLargestGo d (n - 1) 1 (d.getD 0 0) 0).2 < n := by
    rcases h3 with h | h
    · omega
    · omega
  simp only [fixBiggest]
  exact swap_mem d n 0 _ (by omega) hli hlen v

theorem foundLive_iff_window (d : List Nat) (m v : Nat) (hm : m ≤ d.length) :
    (foundLive d m v = true ↔ ∃ j, j < m ∧ d.getD j 0 = v) := by
  rw [foundLive_iff_getD]
  constructor
  · rintro ⟨j, hj, _, hv⟩
    exact ⟨j, hj, hv⟩
  · rintro ⟨j, hj, hv⟩
    exact ⟨j, hj, by omega, hv⟩

theorem differenceArr_mem (s : Sparse) (n0 : Nat) (hn : s.asize = some n0)
    (hlen : n0 ≤ s.data.length) (hasO : Nat → Bool) (v : Nat) :
    ((s.differenceArr hasO).has v = true ↔ (s.has v = true ∧ hasO v = false)) := by
  obtain ⟨hle, hlength⟩ := sieveGo_le hasO n0 s.data n0 0 false
  have hmem := sieveGo_mem hasO n0 s.data n0 0 false (by omega) (by omega) hlen
    (fun j hj => absurd hj (by omega)) v
  have hsrc : s.has v = foundLive s.data n0 v := by
    simp only [Sparse.has, hn]
  by_cases hc : (sieveGo hasO n0 s.data n0 0 false).2.2 = true ∧
      1 < (sieveGo hasO n0 s.data n0 0 false).2.1
  · have hres : s.differenceArr hasO =
        { asize := some (sieveGo hasO n0 s.data n0 0 false).2.1,
          data := fixBiggest (sieveGo hasO n0 s.data n0 0 false).1
            (sieveGo hasO n0 s.data n0 0 false).2.1 } := by
      simp only [Sparse.differenceArr, hn, if_pos hc]
    rw [hres, hsrc]
    simp only [Sparse.has]
    rw [foundLive_iff_window _ _ _ (by rw [length_fixBiggest, hlength]; omega),
      fixBiggest_mem _ _ (by omega) (by rw [hlength]; omega) v, hmem,
      foundLive_iff_window s.data n0 v hlen]
  · have hres : s.differenceArr hasO =
        { asize := some (sieveGo hasO n0 s.data n0 0 false).2.1,
          data := (sieveGo hasO n0 s.data n0 0 false).1 } := by
      simp only [Sparse.differenceArr, hn, if_neg hc]
    rw [hres, hsrc]
    simp only [Sparse.has]
    rw [foundLive_iff_window _ _ _ (by rw [hlength]; omega), hmem,
      foundLive_iff_window s.data n0 v hlen]

/-- C4: `difference2` stores `A − B` into the other operand: on the
wordwise path (dense receiver, and the identical dense branch of the
sparse class) every bit of the result is `A`'s bit and not `B`'s — the
same membership that `difference` leaves in `A` — and on the array-mode
sparse path the resulting live entries are exactly the live entries of
`A` on which the other operand's `has` is false.  (In the source the
result is assigned to the other bitset and returned, and `A`'s own
membership is read but never written.) -/
theorem C4_difference2_stores_A_minus_B (w o : List Nat) (s : Sparse) (n0 : Nat)
    (hn : s.asize = some n0) (hlen : n0 ≤ s.data.length) (hasO : Nat → Bool) :
    (∀ i, hasBitW (difference2W w o) i = (hasBitW w i && !hasBitW o i)) ∧
    (∀ i, hasBitW (difference2W w o) i = hasBitW (differenceW w o) i) ∧
    (∀ v, ((s.differenceArr hasO).has v = true ↔ (s.has v = true ∧ hasO v = false))) :=
  ⟨fun i => difference2W_members w o i,
   fun i => by rw [difference2W_members w o i, differenceW_members w o i],
   fun v => differenceArr_mem s n0 hn hlen hasO v⟩

theorem C4_difference2_stores_A_minus_B_witness :
    (sparseOfList [2, 1]).asize = some 2 ∧ 2 ≤ (sparseOfList [2, 1]).data.length ∧
    ((∀ i, hasBitW (difference2W [3] [5]) i = (hasBitW [3] i && !hasBitW [5] i)) ∧
      (∀ i, hasBitW (difference2W [3] [5]) i = hasBitW (differenceW [3] [5]) i) ∧
      (∀ v, (((sparseOfList [2, 1]).differenceArr fun x => x == 1).has v = true ↔
        ((sparseOfList [2, 1]).has v = true ∧ (fun x => x == 1) v = false)))) :=
  ⟨by decide, by decide,
    C4_difference2_stores_A_minus_B [3] [5] (sparseOfList [2, 1]) 2
      (by decide) (by decide) (fun x => x == 1)⟩

theorem getD_lt_bound {l : List Nat} {B : Nat} (hB : 0 < B) (h : ∀ x ∈ l, x < B)
    (k : Nat) : l.getD k 0 < B := by
  by_cases hk : k < l.length
  · have := h (l[k]) (List.getElem_mem hk)
    simpa [List.getD_eq_getElem?_getD, List.getElem?_eq_getElem hk] using this
  · rw [getD_oob (by omega)]
    exact hB

theorem getD_le_bound {l : List Nat} {m : Nat} (h : ∀ x ∈ l, x ≤ m) (k : Nat) :
    l.getD k 0 ≤ m := by
  by_cases hk : k < l.length
  · have := h (l[k]) (List.getElem_mem hk)
    simpa [List.getD_eq_getElem?_getD, List.getElem?_eq_getElem hk] using this
  · rw [getD_oob (by omega)]
    omega

theorem getD_range (n q : Nat) : (List.range n).getD q 0 = if q < n then q else 0 := by
  by_cases hq : q < n
  · rw [if_pos hq, List.getD_eq_getElem?_getD, List.getElem?_range hq]
    rfl
  · rw [if_neg hq, getD_oob (by simpa using by omega)]

theorem getD_zipWith_add :
    ∀ (l1 l2 : List Nat), l1.length = l2.length → ∀ q,
      (List.zipWith (· + ·) l1 l2).getD q 0 = l1.getD q 0 + l2.getD q 0
  | [], [], _, q => by simp [List.zipWith]
  | [], _ :: _, h, q => by simp at h
  | _ :: _, [], h, q => by simp at h
  | a :: t1, b :: t2, h, 0 => by simp [List.zipWith]
  | a :: t1, b :: t2, h, q + 1 => by
    simp only [List.zipWith_cons_cons, List.getD_cons_succ]
    exact getD_zipWith_add t1 t2 (by simpa using h) q

theorem eq_of_getD : ∀ {l1 l2 : List Nat}, l1.length = l2.length →
    (∀ q, l1.getD q 0 = l2.getD q 0) → l1 = l2
  | [], [], _, _ => rfl
  | [], _ :: _, h, _ => by simp at h
  | _ :: _, [], h, _ => by simp at h
  | a :: t1, b :: t2, h, hq => by
    have h0 := hq 0
    simp only [List.getD_cons_zero] at h0
    subst h0
    have := @eq_of_getD t1 t2 (by simpa using h)
      (fun q => by simpa using hq (q + 1))
    rw [this]

theorem wsum_lt (B : Nat) : ∀ l : List Nat, (∀ x ∈ l, x < B) →
    wsum B l < B ^ l.length
  | [], _ => by simp [wsum]
  | d :: ds, h => by
    have hd : d < B := h d (List.mem_cons_self d ds)
    have hds : wsum B ds < B ^ ds.length :=
      wsum_lt B ds (fun x hx => h x (List.mem_cons_of_mem d hx))
    simp only [List.length_cons, wsum]
    calc d + B * wsum B ds < B + B * wsum B ds := by omega
    _ = B * (wsum B ds + 1) := by ring
    _ ≤ B * B ^ ds.length := Nat.mul_le_mul_left B (by omega)
    _ = B ^ (ds.length + 1) := by ring

theorem wsum_div_pow_mod (B : Nat) (hB : 1 ≤ B) :
    ∀ (q : Nat) (l : List Nat), (∀ x ∈ l, x < B) → wsum B l / B ^ q % B = l.getD q 0 := by
  intro q
  induction q with
  | zero =>
    intro l h
    cases l with
    | nil => simp [wsum]
    | cons d ds =>
      have hd : d < B := h d (List.mem_cons_self d ds)
      simp only [wsum, pow_zero, Nat.div_one, List.getD_cons_zero]
      rw [Nat.add_mul_mod_self_left, Nat.mod_eq_of_lt hd]
  | succ q ih =>
    intro l h
    cases l with
    | nil => simp [wsum]
    | cons d ds =>
      have hd : d < B := h d (List.mem_cons_self d ds)
      have hstep : wsum B (d :: ds) / B ^ (q + 1) = wsum B ds / B ^ q := by
        have h1 : B ^ (q + 1) = B * B ^ q := by ring
        rw [h1, ← Nat.div_div_eq_div_mul]
        congr 1
        simp only [wsum]
        rw [Nat.add_mul_div_left _ _ (by omega : 0 < B), Nat.div_eq_of_lt hd]
        omega
      rw [hstep, ih ds (fun x hx => h x (List.mem_cons_of_mem d hx)),
        List.getD_cons_succ]

theorem wsum_testBit (b : Nat) (hb : 0 < b) (l : List Nat)
    (h : ∀ x ∈ l, x < 2 ^ b) (i : Nat) :
    (wsum (2 ^ b) l).testBit i = (l.getD (i / b) 0).testBit (i % b) := by
  have h1 : (wsum (2 ^ b) l).testBit i =
      ((wsum (2 ^ b) l) >>> (b * (i / b))).testBit (i % b) := by
    rw [Nat.testBit_shiftRight]
    congr 1
    exact (Nat.div_add_mod i b).symm
  rw [h1, Nat.shiftRight_eq_div_pow, show (2 : Nat) ^ (b * (i / b)) = (2 ^ b) ^ (i / b)
      from by rw [← pow_mul]]
  have h3 : (wsum (2 ^ b) l / (2 ^ b) ^ (i / b)).testBit (i % b) =
      ((wsum (2 ^ b) l / (2 ^ b) ^ (i / b)) % 2 ^ b).testBit (i % b) := by
    rw [Nat.testBit_mod_two_pow]
    simp [Nat.mod_lt i hb]
  rw [h3, wsum_div_pow_mod (2 ^ b) (by have := Nat.two_pow_pos b; omega) (i / b) l h]

theorem getD_replicate (m v q : Nat) :
    (List.replicate m v).getD q 0 = if q < m then v else 0 := by
  rw [List.getD_eq_getElem?_getD, List.getElem?_replicate]
  split <;> rfl

theorem wsum_zipWith_add (B : Nat) :
    ∀ (l1 l2 : List Nat), l1.length = l2.length →
      wsum B (List.zipWith (· + ·) l1 l2) = wsum B l1 + wsum B l2
  | [], [], _ => rfl
  | [], _ :: _, h => by simp at h
  | _ :: _, [], h => by simp at h
  | a :: t1, b :: t2, h => by
    simp only [List.zipWith_cons_cons, wsum]
    rw [wsum_zipWith_add B t1 t2 (by simpa using h)]
    ring

theorem wsum_append (B : Nat) :
    ∀ l1 l2 : List Nat, wsum B (l1 ++ l2) = wsum B l1 + B ^ l1.length * wsum B l2
  | [], l2 => by simp [wsum]
  | d :: t, l2 => by
    show d + B * wsum B (t ++ l2) = d + B * wsum B t + B ^ (t.length + 1) * wsum B l2
    rw [wsum_append B t l2]
    ring

theorem wsum_range_digits (B : Nat) (v : Nat) :
    ∀ n, wsum B ((List.range n).map fun t => v / B ^ t % B) = v % B ^ n := by
  intro n
  induction n with
  | zero => simp [wsum, Nat.mod_one]
  | succ n ih =>
    rw [List.range_succ, List.map_append, wsum_append, List.map_cons, List.map_nil,
      List.length_map, List.length_range, ih]
    have h1 : wsum B [v / B ^ n % B] = v / B ^ n % B := by
      simp [wsum]
    rw [h1, pow_succ, Nat.mod_mul]

theorem wsum_pairUp (B : Nat) :
    ∀ l : List Nat, wsum (B * B) (pairUp B l) = wsum B l
  | [] => rfl
  | [a] => by simp [pairUp, wsum]
  | a :: b :: t => by
    simp only [pairUp, wsum]
    rw [wsum_pairUp B t]
    ring

theorem pairUp_len (B : Nat) : ∀ l : List Nat, (pairUp B l).length = (l.length + 1) / 2
  | [] => rfl
  | [a] => by simp [pairUp]
  | a :: b :: t => by
    simp only [pairUp, List.length_cons, pairUp_len B t]
    omega

theorem sumPairs_len : ∀ l : List Nat, (sumPairs l).length = (l.length + 1) / 2
  | [] => rfl
  | [a] => by simp [sumPairs]
  | a :: b :: t => by
    simp only [sumPairs, List.length_cons, sumPairs_len t]
    omega

theorem pairUp_getD (B : Nat) :
    ∀ l : List Nat, ∀ q, (pairUp B l).getD q 0 =
      l.getD (2 * q) 0 + B * l.getD (2 * q + 1) 0
  | [], q => by simp [pairUp]
  | [a], 0 => by simp [pairUp]
  | [a], q + 1 => by
    have h0 : pairUp B [a] = [a] := rfl
    rw [h0,
      getD_oob (show ([a] : List Nat).length ≤ q + 1 by
        simp only [List.length_singleton]; omega),
      getD_oob (show ([a] : List Nat).length ≤ 2 * (q + 1) by
        simp only [List.length_singleton]; omega),
      getD_oob (show ([a] : List Nat).length ≤ 2 * (q + 1) + 1 by
        simp only [List.length_singleton]; omega)]
    omega
  | a :: b :: t, 0 => by simp [pairUp]
  | a :: b :: t, q + 1 => by
    have h0 : pairUp B (a :: b :: t) = (a + B * b) :: pairUp B t := rfl
    rw [h0, List.getD_cons_succ, pairUp_getD B t q]
    have h1 : (a :: b :: t).getD (2 * (q + 1)) 0 = t.getD (2 * q) 0 := by
      rw [show 2 * (q + 1) = 2 * q + 1 + 1 by omega, List.getD_cons_succ,
        List.getD_cons_succ]
    have h2 : (a :: b :: t).getD (2 * (q + 1) + 1) 0 = t.getD (2 * q + 1) 0 := by
      rw [show 2 * (q + 1) + 1 = 2 * q + 1 + 1 + 1 by omega, List.getD_cons_succ,
        List.getD_cons_succ]
    rw [h1, h2]

theorem sumPairs_getD :
    ∀ l : List Nat, ∀ q, (sumPairs l).getD q 0 = l.getD (2 * q) 0 + l.getD (2 * q + 1) 0
  | [], q => by simp [sumPairs]
  | [a], 0 => by simp [sumPairs]
  | [a], q + 1 => by
    have h0 : sumPairs [a] = [a] := rfl
    rw [h0,
      getD_oob (show ([a] : List Nat).length ≤ q + 1 by
        simp only [List.length_singleton]; omega),
      getD_oob (show ([a] : List Nat).length ≤ 2 * (q + 1) by
        simp only [List.length_singleton]; omega),
      getD_oob (show ([a] : List Nat).length ≤ 2 * (q + 1) + 1 by
        simp only [List.length_singleton]; omega)]
  | a :: b :: t, 0 => by simp [sumPairs]
  | a :: b :: t, q + 1 => by
    have h0 : sumPairs (a :: b :: t) = (a + b) :: sumPairs t := rfl
    rw [h0, List.getD_cons_succ, sumPairs_getD t q]
    have h1 : (a :: b :: t).getD (2 * (q + 1)) 0 = t.getD (2 * q) 0 := by
      rw [show 2 * (q + 1) = 2 * q + 1 + 1 by omega, List.getD_cons_succ,
        List.getD_cons_succ]
    have h2 : (a :: b :: t).getD (2 * (q + 1) + 1) 0 = t.getD (2 * q + 1) 0 := by
      rw [show 2 * (q + 1) + 1 = 2 * q + 1 + 1 + 1 by omega, List.getD_cons_succ,
        List.getD_cons_succ]
    rw [h1, h2]

theorem sumPairs_sum : ∀ l : List Nat, (sumPairs l).sum = l.sum
  | [] => rfl
  | [a] => rfl
  | a :: b :: t => by
    simp only [sumPairs, List.sum_cons]
    rw [sumPairs_sum t]
    ring

theorem sumPairs_bound (m : Nat) :
    ∀ l : List Nat, (∀ x ∈ l, x ≤ m) → ∀ y ∈ sumPairs l, y ≤ 2 * m
  | [], _, y, hy => by simp [sumPairs] at hy
  | [a], h, y, hy => by
    simp only [sumPairs, List.mem_singleton] at hy
    have ha := h a (by simp)
    omega
  | a :: b :: t, h, y, hy => by
    simp only [sumPairs, List.mem_cons] at hy
    rcases hy with hy | hy
    · have ha := h a (by simp)
      have hb := h b (by simp)
      omega
    · exact sumPairs_bound m t (fun x hx => h x (by simp [hx])) y hy

theorem getD_map (f : Nat → Nat) (l : List Nat) (q : Nat) :
    (l.map f).getD q 0 = if q < l.length then f (l.getD q 0) else 0 := by
  by_cases hq : q < l.length
  · rw [if_pos hq, List.getD_eq_getElem?_getD, List.getElem?_map,
      List.getElem?_eq_getElem hq]
    simp [List.getD_eq_getElem?_getD, List.getElem?_eq_getElem hq]
  · rw [if_neg hq, getD_oob (by simp only [List.length_map]; omega)]

theorem shift_and_mask (b s k n : Nat) (hb : 0 < b) (hsk : s + k ≤ b)
    (l : List Nat) (hl : ∀ x ∈ l, x < 2 ^ b) (hlen : l.length = n) :
    (wsum (2 ^ b) l >>> s) &&& wsum (2 ^ b) (List.replicate n (2 ^ k - 1)) =
      wsum (2 ^ b) (l.map fun d => d / 2 ^ s % 2 ^ k) := by
  have hmaskd : ∀ x ∈ List.replicate n (2 ^ k - 1), x < 2 ^ b := by
    intro x hx
    rw [List.eq_of_mem_replicate hx]
    have h1 : (2 : Nat) ^ k ≤ 2 ^ b := Nat.pow_le_pow_right (by omega) (by omega)
    have h2 : 0 < (2 : Nat) ^ k := Nat.two_pow_pos k
    omega
  have hmapd : ∀ x ∈ l.map fun d => d / 2 ^ s % 2 ^ k, x < 2 ^ b := by
    intro x hx
    obtain ⟨d, _, hd⟩ := List.mem_map.mp hx
    have h1 : x < 2 ^ k := hd ▸ Nat.mod_lt _ (Nat.two_pow_pos k)
    exact lt_of_lt_of_le h1 (Nat.pow_le_pow_right (by omega) (by omega))
  apply Nat.eq_of_testBit_eq
  intro i
  rw [Nat.testBit_and, Nat.testBit_shiftRight,
    wsum_testBit b hb l hl (s + i),
    wsum_testBit b hb _ hmaskd i,
    wsum_testBit b hb _ hmapd i,
    getD_replicate, getD_map]
  simp only [List.length_map, hlen]
  have hi := Nat.div_add_mod i b
  have hmlt : i % b < b := Nat.mod_lt i hb
  by_cases hq : i / b < n
  · rw [if_pos hq, if_pos hq, Nat.testBit_two_pow_sub_one]
    by_cases hr : i % b < k
    · have hsplit : s + i = (s + i % b) + b * (i / b) := by omega
      have h1 : (s + i) / b = i / b := by
        rw [hsplit, Nat.add_mul_div_left _ _ hb,
          Nat.div_eq_of_lt (by omega : s + i % b < b)]
        omega
      have h2 : (s + i) % b = s + i % b := by
        rw [hsplit, Nat.add_mul_mod_self_left,
          Nat.mod_eq_of_lt (by omega : s + i % b < b)]
      rw [h1, h2, Nat.testBit_mod_two_pow, ← Nat.shiftRight_eq_div_pow,
        Nat.testBit_shiftRight]
      simp [hr]
    · rw [Nat.testBit_mod_two_pow]
      simp [hr]
  · rw [if_neg hq, if_neg hq]
    simp

theorem shift4_bytes (l : List Nat) (hl : ∀ x ∈ l, x < 2 ^ 8) (hlen : l.length = 4) :
    wsum (2 ^ 8) l >>> 4 =
      wsum (2 ^ 8) ((List.range 4).map fun t =>
        l.getD t 0 / 16 + l.getD (t + 1) 0 % 16 * 16) := by
  have hgd : ∀ t, l.getD t 0 < 2 ^ 8 := getD_lt_bound (by norm_num) hl
  have hmapd : ∀ x ∈ (List.range 4).map fun t =>
      l.getD t 0 / 16 + l.getD (t + 1) 0 % 16 * 16, x < 2 ^ 8 := by
    intro x hx
    obtain ⟨t, _, ht⟩ := List.mem_map.mp hx
    have h1 : l.getD t 0 / 16 < 16 := by
      have := hgd t
      omega
    have h2 : l.getD (t + 1) 0 % 16 < 16 := Nat.mod_lt _ (by norm_num)
    omega
  apply Nat.eq_of_testBit_eq
  intro i
  rw [Nat.testBit_shiftRight,
    wsum_testBit 8 (by norm_num) l hl (4 + i),
    wsum_testBit 8 (by norm_num) _ hmapd i,
    getD_map]
  simp only [List.length_map, List.length_range]
  by_cases hq : i / 8 < 4
  · rw [if_pos hq, getD_range, if_pos hq]
    have hsplit : l.getD (i / 8) 0 / 16 + l.getD (i / 8 + 1) 0 % 16 * 16 =
        2 ^ 4 * (l.getD (i / 8 + 1) 0 % 16) + l.getD (i / 8) 0 / 16 := by
      ring
    rw [hsplit, Nat.testBit_mul_pow_two_add _ (by have := hgd (i / 8); omega)]
    by_cases hr : i % 8 < 4
    · rw [if_pos hr, show (4 + i) / 8 = i / 8 by omega, show (4 + i) % 8 = 4 + i % 8
        by omega, show l.getD (i / 8) 0 / 16 = l.getD (i / 8) 0 / 2 ^ 4 by norm_num,
        ← Nat.shiftRight_eq_div_pow, Nat.testBit_shiftRight]
    · rw [if_neg hr, show (4 + i) / 8 = i / 8 + 1 by omega,
        show (4 + i) % 8 = i % 8 - 4 by omega,
        show (16 : Nat) = 2 ^ 4 by norm_num, Nat.testBit_mod_two_pow]
      have : i % 8 - 4 < 4 := by omega
      simp [this]
  · rw [if_neg hq]
    have h48 : ¬ ((4 + i) / 8 < 4) := by omega
    rw [getD_oob (show l.length ≤ (4 + i) / 8 by omega)]
    simp

theorem wsum_mul_magic (l : List Nat) (hlen : l.length = 4) (hl : ∀ x ∈ l, x ≤ 32) :
    wsum 256 l * 16843009 % 4294967296 / 16777216 = l.sum := by
  rcases l with _ | ⟨x0, _ | ⟨x1, _ | ⟨x2, _ | ⟨x3, _ | ⟨x4, t⟩⟩⟩⟩⟩ <;>
    simp at hlen
  · have h0 := hl x0 (by simp)
    have h1 := hl x1 (by simp)
    have h2 := hl x2 (by simp)
    have h3 := hl x3 (by simp)
    simp only [wsum, List.sum_cons, List.sum_nil]
    have hP : (x0 + 256 * (x1 + 256 * (x2 + 256 * (x3 + 256 * 0)))) * 16843009 =
        (x0 + (x0 + x1) * 256 + (x0 + x1 + x2) * 65536 +
          (x0 + x1 + x2 + x3) * 16777216) +
        4294967296 * (x1 + x2 * 257 + x3 * 65793) := by
      ring
    rw [hP, Nat.add_mul_mod_self_left,
      Nat.mod_eq_of_lt (by omega :
        x0 + (x0 + x1) * 256 + (x0 + x1 + x2) * 65536 +
          (x0 + x1 + x2 + x3) * 16777216 < 4294967296)]
    omega

theorem popcountAux_wsum : ∀ l : List Nat, (∀ x ∈ l, x < 4) →
    popcountAux (2 * l.length) (wsum 4 l) = (l.map fun d => d % 2 + d / 2).sum
  | [], _ => rfl
  | d :: t, h => by
    have hd : d < 4 := h d (List.mem_cons_self d t)
    have ih := popcountAux_wsum t (fun x hx => h x (List.mem_cons_of_mem d hx))
    simp only [List.length_cons, List.map_cons, List.sum_cons]
    have hlen : 2 * (t.length + 1) = 2 * t.length + 1 + 1 := by ring
    rw [hlen]
    show (d + 4 * wsum 4 t) % 2 +
        ((d + 4 * wsum 4 t) / 2 % 2 + popcountAux (2 * t.length)
          ((d + 4 * wsum 4 t) / 2 / 2)) =
      d % 2 + d / 2 + (t.map fun d => d % 2 + d / 2).sum
    have e1 : (d + 4 * wsum 4 t) % 2 = d % 2 := by omega
    have e2 : (d + 4 * wsum 4 t) / 2 % 2 = d / 2 := by omega
    have e3 : (d + 4 * wsum 4 t) / 2 / 2 = wsum 4 t := by omega
    rw [e1, e2, e3, ih]
    ring

theorem popcountAux_countP : ∀ (f : Nat) (n : Nat),
    popcountAux f n = (List.range f).countP fun j => n.testBit j := by
  intro f
  induction f with
  | zero => intro n; rfl
  | succ f ih =>
    intro n
    rw [List.range_succ_eq_map, List.countP_cons]
    show n % 2 + popcountAux f (n / 2) = _
    rw [ih (n / 2), List.countP_map]
    have hcong : (List.range f).countP ((fun j => n.testBit j) ∘ (· + 1)) =
        (List.range f).countP fun j => (n / 2).testBit j := by
      apply List.countP_congr
      intro j _
      simp only [Function.comp_apply]
      rw [← Nat.testBit_div_two]
    rw [hcong]
    have hb0 : (decide (n % 2 = 1) : Bool) = n.testBit 0 := by
      rw [Nat.testBit_to_div_mod]
      norm_num
    rcases Nat.mod_two_eq_zero_or_one n with h | h
    · rw [← hb0]
      simp [h]
    · rw [← hb0]
      simp [h]
      omega

theorem digits4_len (v : Nat) : (digits4 v).length = 16 := by
  simp [digits4]

theorem digits4_lt (v : Nat) : ∀ x ∈ digits4 v, x < 4 := by
  intro x hx
  obtain ⟨t, _, ht⟩ := List.mem_map.mp hx
  rw [← ht]
  exact Nat.mod_lt _ (by norm_num)

theorem wsum_digits4 (v : Nat) (hv : v < 4294967296) : wsum 4 (digits4 v) = v := by
  rw [digits4, wsum_range_digits 4 v 16]
  have h16 : (4 : Nat) ^ 16 = 4294967296 := by norm_num
  rw [h16, Nat.mod_eq_of_lt hv]

theorem zipWith_map_map_eq (f g : Nat → Nat) :
    ∀ l : List Nat, (∀ x ∈ l, f x + g x = x) →
      List.zipWith (· + ·) (l.map f) (l.map g) = l
  | [], _ => rfl
  | a :: t, h => by
    simp only [List.map_cons, List.zipWith_cons_cons]
    rw [h a (by simp), zipWith_map_map_eq f g t (fun x hx => h x (by simp [hx]))]

theorem pairUp_lt (B : Nat) (hB : 0 < B) :
    ∀ l : List Nat, (∀ x ∈ l, x < B) → ∀ y ∈ pairUp B l, y < B * B
  | [], _, y, hy => by simp [pairUp] at hy
  | [a], h, y, hy => by
    simp only [pairUp, List.mem_singleton] at hy
    have ha := h a (by simp)
    have hBB : B ≤ B * B := Nat.le_mul_of_pos_left B hB
    omega
  | a :: b :: t, h, y, hy => by
    simp only [pairUp, List.mem_cons] at hy
    rcases hy with hy | hy
    · have ha := h a (by simp)
      have hb2 := h b (by simp)
      have h1 : B * b + B ≤ B * B :=
        calc B * b + B = B * (b + 1) := by ring
        _ ≤ B * B := Nat.mul_le_mul_left B (by omega)
      omega
    · exact pairUp_lt B hB t (fun x hx => h x (by simp [hx])) y hy

theorem pairUp_le (B m : Nat) :
    ∀ l : List Nat, (∀ x ∈ l, x ≤ m) → ∀ y ∈ pairUp B l, y ≤ m + B * m
  | [], _, y, hy => by simp [pairUp] at hy
  | [a], h, y, hy => by
    simp only [pairUp, List.mem_singleton] at hy
    have ha := h a (by simp)
    omega
  | a :: b :: t, h, y, hy => by
    simp only [pairUp, List.mem_cons] at hy
    rcases hy with hy | hy
    · have ha := h a (by simp)
      have hb2 := h b (by simp)
      have h1 : B * b ≤ B * m := Nat.mul_le_mul_left B hb2
      omega
    · exact pairUp_le B m t (fun x hx => h x (by simp [hx])) y hy

theorem zipWith_add_bound (m1 m2 : Nat) :
    ∀ l1 l2 : List Nat, (∀ x ∈ l1, x ≤ m1) → (∀ x ∈ l2, x ≤ m2) →
      ∀ y ∈ List.zipWith (· + ·) l1 l2, y ≤ m1 + m2
  | [], _, _, _, y, hy => by simp at hy
  | _ :: _, [], _, _, y, hy => by simp at hy
  | a :: t1, b :: t2, h1, h2, y, hy => by
    simp only [List.zipWith_cons_cons, List.mem_cons] at hy
    rcases hy with hy | hy
    · have ha := h1 a (by simp)
      have hb2 := h2 b (by simp)
      omega
    · exact zipWith_add_bound m1 m2 t1 t2 (fun x hx => h1 x (by simp [hx]))
        (fun x hx => h2 x (by simp [hx])) y hy

theorem zipWith_add_sum :
    ∀ l1 l2 : List Nat, l1.length = l2.length →
      (List.zipWith (· + ·) l1 l2).sum = l1.sum + l2.sum
  | [], [], _ => rfl
  | [], _ :: _, h => by simp at h
  | _ :: _, [], h => by simp at h
  | a :: t1, b :: t2, h => by
    simp only [List.zipWith_cons_cons, List.sum_cons]
    rw [zipWith_add_sum t1 t2 (by simpa using h)]
    ring

theorem pipeline_v1 (v : Nat) (hv : v < 4294967296) :
    v - (v >>> 1 &&& 1431655765) = wsum 4 ((digits4 v).map fun d => d - d / 2) := by
  have hdl4 : ∀ x ∈ digits4 v, x < 4 := digits4_lt v
  have hdl4' : ∀ x ∈ digits4 v, x < 2 ^ 2 := fun x hx => by
    have := hdl4 x hx
    omega
  have hdlv : wsum 4 (digits4 v) = v := wsum_digits4 v hv
  have hm1 : v >>> 1 &&& 1431655765 = wsum 4 ((digits4 v).map fun d => d / 2) := by
    have h := shift_and_mask 2 1 1 16 (by norm_num) (by norm_num) (digits4 v)
      hdl4' (digits4_len v)
    rw [show (2 : Nat) ^ 2 = 4 by norm_num] at h
    rw [hdlv] at h
    rw [show ((2 : Nat) ^ 1 - 1) = 1 by norm_num] at h
    rw [show wsum 4 (List.replicate 16 1) = 1431655765 by decide] at h
    rw [show (digits4 v).map (fun d => d / 2 ^ 1 % 2 ^ 1) =
        (digits4 v).map fun d => d / 2 from
      List.map_congr_left fun d hd => by
        have := hdl4 d hd
        simp only [pow_one]
        omega] at h
    exact h
  rw [hm1]
  have hadd : wsum 4 ((digits4 v).map fun d => d - d / 2) +
      wsum 4 ((digits4 v).map fun d => d / 2) = v := by
    rw [← wsum_zipWith_add 4 _ _ (by simp),
      zipWith_map_map_eq _ _ (digits4 v) (fun x _ => by omega), hdlv]
  omega

set_option maxHeartbeats 1000000 in
theorem pipeline_v2 (v : Nat) (hv : v < 4294967296) :
    ((v - (v >>> 1 &&& 1431655765)) &&& 858993459) +
      ((v - (v >>> 1 &&& 1431655765)) >>> 2 &&& 858993459) =
    wsum 16 (sumPairs ((digits4 v).map fun d => d - d / 2)) := by
  have hdl4 : ∀ x ∈ digits4 v, x < 4 := digits4_lt v
  have hcl2 : ∀ x ∈ (digits4 v).map fun d => d - d / 2, x ≤ 2 := by
    intro x hx
    obtain ⟨d, hd, hdx⟩ := List.mem_map.mp hx
    have := hdl4 d hd
    omega
  have hcl4 : ∀ x ∈ (digits4 v).map fun d => d - d / 2, x < 4 := fun x hx => by
    have := hcl2 x hx
    omega
  have hcllen : ((digits4 v).map fun d => d - d / 2).length = 16 := by
    simp [digits4_len]
  have hel16 : ∀ x ∈ pairUp 4 ((digits4 v).map fun d => d - d / 2), x < 16 := by
    intro x hx
    have := pairUp_lt 4 (by norm_num) _ hcl4 x hx
    omega
  have hel16' : ∀ x ∈ pairUp 4 ((digits4 v).map fun d => d - d / 2), x < 2 ^ 4 :=
    fun x hx => by
      have := hel16 x hx
      omega
  have hellen : (pairUp 4 ((digits4 v).map fun d => d - d / 2)).length = 8 := by
    rw [pairUp_len, hcllen]
  have hel : wsum 16 (pairUp 4 ((digits4 v).map fun d => d - d / 2)) =
      wsum 4 ((digits4 v).map fun d => d - d / 2) := by
    have := wsum_pairUp 4 ((digits4 v).map fun d => d - d / 2)
    simpa using this
  have hA : (v - (v >>> 1 &&& 1431655765)) &&& 858993459 =
      wsum 16 ((pairUp 4 ((digits4 v).map fun d => d - d / 2)).map fun e => e % 4) := by
    rw [pipeline_v1 v hv, ← hel]
    have h := shift_and_mask 4 0 2 8 (by norm_num) (by norm_num) _ hel16' hellen
    rw [Nat.shiftRight_zero] at h
    rw [show (2 : Nat) ^ 4 = 16 by norm_num] at h
    rw [show ((2 : Nat) ^ 2 - 1) = 3 by norm_num] at h
    rw [show wsum 16 (List.replicate 8 3) = 858993459 by decide] at h
    rw [show (pairUp 4 ((digits4 v).map fun d => d - d / 2)).map
          (fun d => d / 2 ^ 0 % 2 ^ 2) =
        (pairUp 4 ((digits4 v).map fun d => d - d / 2)).map fun e => e % 4 from
      List.map_congr_left fun d _ => by norm_num] at h
    exact h
  have hB : (v - (v >>> 1 &&& 1431655765)) >>> 2 &&& 858993459 =
      wsum 16 ((pairUp 4 ((digits4 v).map fun d => d - d / 2)).map fun e => e / 4) := by
    rw [pipeline_v1 v hv, ← hel]
    have h := shift_and_mask 4 2 2 8 (by norm_num) (by norm_num) _ hel16' hellen
    rw [show (2 : Nat) ^ 4 = 16 by norm_num] at h
    rw [show ((2 : Nat) ^ 2 - 1) = 3 by norm_num] at h
    rw [show wsum 16 (List.replicate 8 3) = 858993459 by decide] at h
    rw [show (pairUp 4 ((digits4 v).map fun d => d - d / 2)).map
          (fun d => d / 2 ^ 2 % 2 ^ 2) =
        (pairUp 4 ((digits4 v).map fun d => d - d / 2)).map fun e => e / 4 from
      List.map_congr_left fun d hd => by
        have := hel16 d hd
        simp only [show (2 : Nat) ^ 2 = 4 by norm_num]
        omega] at h
    exact h
  rw [hA, hB, ← wsum_zipWith_add 16 _ _ (by simp)]
  congr 1
  apply eq_of_getD
  · simp only [List.length_zipWith, List.length_map, sumPairs_len, hellen, hcllen]
    omega
  · intro q
    rw [getD_zipWith_add _ _ (by simp) q, getD_map, getD_map, sumPairs_getD]
    by_cases hq : q < (pairUp 4 ((digits4 v).map fun d => d - d / 2)).length
    · rw [if_pos hq, if_pos hq, pairUp_getD]
      have hc0 : ((digits4 v).map fun d => d - d / 2).getD (2 * q) 0 ≤ 2 :=
        getD_le_bound hcl2 _
      have hc1 : ((digits4 v).map fun d => d - d / 2).getD (2 * q + 1) 0 ≤ 2 :=
        getD_le_bound hcl2 _
      omega
    · rw [if_neg hq, if_neg hq,
        getD_oob (show ((digits4 v).map fun d => d - d / 2).length ≤ 2 * q by
          rw [hcllen]
          rw [hellen] at hq
          omega),
        getD_oob (show ((digits4 v).map fun d => d - d / 2).length ≤ 2 * q + 1 by
          rw [hcllen]
          rw [hellen] at hq
          omega)]

theorem mem_getD {l : List Nat} {x : Nat} (h : x ∈ l) :
    ∃ q, q < l.length ∧ l.getD q 0 = x := by
  rw [List.mem_iff_getElem] at h
  obtain ⟨q, hq, hx⟩ := h
  refine ⟨q, hq, ?_⟩
  rw [List.getD_eq_getElem?_getD, List.getElem?_eq_getElem hq]
  simpa using hx

set_option maxHeartbeats 1000000 in
theorem byte_stage_core (fl : List Nat) (hlen : fl.length = 4)
    (hsmall : ∀ t, fl.getD t 0 % 16 ≤ 4 ∧ fl.getD t 0 / 16 ≤ 4) :
    (wsum 256 fl + (wsum 256 fl >>> 4)) &&& 252645135 =
      wsum 256 ((List.range 4).map fun t => fl.getD t 0 % 16 + fl.getD t 0 / 16) := by
  have hfl68 : ∀ x ∈ fl, x ≤ 68 := by
    intro x hx
    obtain ⟨q, _, hq⟩ := mem_getD hx
    have := hsmall q
    omega
  have hfl256 : ∀ x ∈ fl, x < 2 ^ 8 := by
    intro x hx
    have := hfl68 x hx
    omega
  have hgl68 : ∀ x ∈ (List.range 4).map fun t =>
      fl.getD t 0 / 16 + fl.getD (t + 1) 0 % 16 * 16, x ≤ 68 := by
    intro x hx
    obtain ⟨t, _, hdx⟩ := List.mem_map.mp hx
    have h1 := hsmall t
    have h2 := hsmall (t + 1)
    omega
  have hgllen : ((List.range 4).map fun t =>
      fl.getD t 0 / 16 + fl.getD (t + 1) 0 % 16 * 16).length = 4 := by
    simp
  have hhl256 : ∀ x ∈ List.zipWith (· + ·) fl ((List.range 4).map fun t =>
      fl.getD t 0 / 16 + fl.getD (t + 1) 0 % 16 * 16), x < 2 ^ 8 := by
    intro x hx
    have := zipWith_add_bound 68 68 _ _ hfl68 hgl68 x hx
    omega
  have hhllen : (List.zipWith (· + ·) fl ((List.range 4).map fun t =>
      fl.getD t 0 / 16 + fl.getD (t + 1) 0 % 16 * 16)).length = 4 := by
    simp only [List.length_zipWith, List.length_map, List.length_range, hlen]
    omega
  have hshift : wsum 256 fl >>> 4 = wsum 256 ((List.range 4).map fun t =>
      fl.getD t 0 / 16 + fl.getD (t + 1) 0 % 16 * 16) := by
    have h := shift4_bytes fl hfl256 hlen
    rw [show (2 : Nat) ^ 8 = 256 by norm_num] at h
    exact h
  rw [hshift, ← wsum_zipWith_add 256 _ _ (by rw [hlen, hgllen])]
  have hmask : wsum 256 (List.zipWith (· + ·) fl ((List.range 4).map fun t =>
      fl.getD t 0 / 16 + fl.getD (t + 1) 0 % 16 * 16)) &&& 252645135 =
      wsum 256 ((List.zipWith (· + ·) fl ((List.range 4).map fun t =>
        fl.getD t 0 / 16 + fl.getD (t + 1) 0 % 16 * 16)).map fun x => x % 16) := by
    have h := shift_and_mask 8 0 4 4 (by norm_num) (by norm_num) _ hhl256 hhllen
    rw [Nat.shiftRight_zero] at h
    rw [show (2 : Nat) ^ 8 = 256 by norm_num] at h
    rw [show ((2 : Nat) ^ 4 - 1) = 15 by norm_num] at h
    rw [show wsum 256 (List.replicate 4 15) = 252645135 by decide] at h
    rw [show (List.zipWith (· + ·) fl ((List.range 4).map fun t =>
          fl.getD t 0 / 16 + fl.getD (t + 1) 0 % 16 * 16)).map
            (fun d => d / 2 ^ 0 % 2 ^ 4) =
        (List.zipWith (· + ·) fl ((List.range 4).map fun t =>
          fl.getD t 0 / 16 + fl.getD (t + 1) 0 % 16 * 16)).map fun x => x % 16 from
      List.map_congr_left fun d _ => by norm_num] at h
    exact h
  rw [hmask]
  congr 1
  apply eq_of_getD
  · simp only [List.length_map, hhllen, List.length_range]
  · intro q
    rw [getD_map, getD_map, getD_range]
    by_cases hq : q < 4
    · rw [if_pos (by rw [hhllen]; omega : q < (List.zipWith (· + ·) fl
          ((List.range 4).map fun t =>
            fl.getD t 0 / 16 + fl.getD (t + 1) 0 % 16 * 16)).length),
        if_pos (by simpa using hq :
          q < (List.range 4).length), if_pos hq,
        getD_zipWith_add fl _ (by rw [hlen, hgllen]) q]
      have hglq : ((List.range 4).map fun t =>
          fl.getD t 0 / 16 + fl.getD (t + 1) 0 % 16 * 16).getD q 0 =
          fl.getD q 0 / 16 + fl.getD (q + 1) 0 % 16 * 16 := by
        rw [getD_map]
        simp only [List.length_range]
        rw [if_pos hq, getD_range, if_pos hq]
      rw [hglq]
      have h1 := hsmall q
      have h2 := hsmall (q + 1)
      omega
    · rw [if_neg (by rw [hhllen]; omega : ¬ q < (List.zipWith (· + ·) fl
          ((List.range 4).map fun t =>
            fl.getD t 0 / 16 + fl.getD (t + 1) 0 % 16 * 16)).length),
        if_neg (by simpa using hq :
          ¬ q < (List.range 4).length)]

set_option maxHeartbeats 1000000 in
theorem pipeline_v3 (v : Nat) (hv : v < 4294967296) :
    ((((v - (v >>> 1 &&& 1431655765)) &&& 858993459) +
        ((v - (v >>> 1 &&& 1431655765)) >>> 2 &&& 858993459)) +
      ((((v - (v >>> 1 &&& 1431655765)) &&& 858993459) +
        ((v - (v >>> 1 &&& 1431655765)) >>> 2 &&& 858993459)) >>> 4)) &&& 252645135 =
    wsum 256 (sumPairs (sumPairs ((digits4 v).map fun d => d - d / 2))) := by
  have hdl4 : ∀ x ∈ digits4 v, x < 4 := digits4_lt v
  have hcl2 : ∀ x ∈ (digits4 v).map fun d => d - d / 2, x ≤ 2 := by
    intro x hx
    obtain ⟨d, hd, hdx⟩ := List.mem_map.mp hx
    have := hdl4 d hd
    omega
  have hcllen : ((digits4 v).map fun d => d - d / 2).length = 16 := by
    simp [digits4_len]
  have hsl4 : ∀ x ∈ sumPairs ((digits4 v).map fun d => d - d / 2), x ≤ 4 := by
    intro x hx
    have := sumPairs_bound 2 _ hcl2 x hx
    omega
  have hsllen : (sumPairs ((digits4 v).map fun d => d - d / 2)).length = 8 := by
    rw [sumPairs_len, hcllen]
  have hfl : wsum 256 (pairUp 16 (sumPairs ((digits4 v).map fun d => d - d / 2))) =
      wsum 16 (sumPairs ((digits4 v).map fun d => d - d / 2)) := by
    have := wsum_pairUp 16 (sumPairs ((digits4 v).map fun d => d - d / 2))
    simpa using this
  have hfllen : (pairUp 16 (sumPairs ((digits4 v).map fun d => d - d / 2))).length =
      4 := by
    rw [pairUp_len, hsllen]
  have hsmall : ∀ t,
      (pairUp 16 (sumPairs ((digits4 v).map fun d => d - d / 2))).getD t 0 % 16 ≤ 4 ∧
      (pairUp 16 (sumPairs ((digits4 v).map fun d => d - d / 2))).getD t 0 / 16 ≤ 4 := by
    intro t
    rw [pairUp_getD]
    have b0 := getD_le_bound hsl4 (2 * t)
    have b1 := getD_le_bound hsl4 (2 * t + 1)
    omega
  rw [pipeline_v2 v hv, ← hfl,
    byte_stage_core _ hfllen hsmall]
  congr 1
  apply eq_of_getD
  · simp only [List.length_map, List.length_range, sumPairs_len, hsllen]
  · intro q
    rw [getD_map, getD_range, sumPairs_getD]
    simp only [List.length_range]
    by_cases hq : q < 4
    · rw [if_pos hq, if_pos hq, pairUp_getD]
      have b0 := getD_le_bound hsl4 (2 * q)
      have b1 := getD_le_bound hsl4 (2 * q + 1)
      omega
    · rw [if_neg hq,
        getD_oob (show (sumPairs ((digits4 v).map fun d => d - d / 2)).length ≤ 2 * q by
          rw [hsllen]; omega),
        getD_oob (show (sumPairs ((digits4 v).map fun d => d - d / 2)).length ≤
          2 * q + 1 by rw [hsllen]; omega)]

theorem SS_facts (v : Nat) (hv : v < 4294967296) :
    (sumPairs (sumPairs ((digits4 v).map fun d => d - d / 2))).length = 4 ∧
    (∀ x ∈ sumPairs (sumPairs ((digits4 v).map fun d => d - d / 2)), x ≤ 8) ∧
    (sumPairs (sumPairs ((digits4 v).map fun d => d - d / 2))).sum = popcount32 v := by
  have hdl4 : ∀ x ∈ digits4 v, x < 4 := digits4_lt v
  have hcl2 : ∀ x ∈ (digits4 v).map fun d => d - d / 2, x ≤ 2 := by
    intro x hx
    obtain ⟨d, hd, hdx⟩ := List.mem_map.mp hx
    have := hdl4 d hd
    omega
  have hcllen : ((digits4 v).map fun d => d - d / 2).length = 16 := by
    simp [digits4_len]
  refine ⟨?_, ?_, ?_⟩
  · rw [sumPairs_len, sumPairs_len, hcllen]
  · intro x hx
    have h4 : ∀ y ∈ sumPairs ((digits4 v).map fun d => d - d / 2), y ≤ 4 := by
      intro y hy
      have := sumPairs_bound 2 _ hcl2 y hy
      omega
    have := sumPairs_bound 4 _ h4 x hx
    omega
  · rw [sumPairs_sum, sumPairs_sum]
    have h32 : popcountAux 32 v = ((digits4 v).map fun d => d % 2 + d / 2).sum := by
      have h1 : popcountAux (2 * (digits4 v).length) (wsum 4 (digits4 v)) =
          ((digits4 v).map fun d => d % 2 + d / 2).sum :=
        popcountAux_wsum (digits4 v) hdl4
      rw [digits4_len, wsum_digits4 v hv] at h1
      exact h1
    show ((digits4 v).map fun d => d - d / 2).sum = popcountAux 32 v
    have hmap : (digits4 v).map (fun d => d - d / 2) =
        (digits4 v).map fun d => d % 2 + d / 2 :=
      List.map_congr_left fun d hd => by
        have := hdl4 d hd
        omega
    rw [hmap]
    exact h32.symm

theorem hammingWeight_eq_popcount32 (v : Nat) (hv : v < 4294967296) :
    hammingWeight v = popcount32 v := by
  obtain ⟨hlen, hle, hsum⟩ := SS_facts v hv
  simp only [hammingWeight]
  rw [pipeline_v3 v hv, Nat.shiftRight_eq_div_pow,
    show (2 : Nat) ^ 24 = 16777216 by norm_num,
    wsum_mul_magic _ hlen (fun x hx => by have := hle x hx; omega), hsum]

theorem hammingWeight4_eq_popcount32 (a b c d : Nat) (ha : a < 4294967296)
    (hb : b < 4294967296) (hc : c < 4294967296) (hd : d < 4294967296) :
    hammingWeight4 a b c d =
      popcount32 a + popcount32 b + popcount32 c + popcount32 d := by
  obtain ⟨hla, hba, hsa⟩ := SS_facts a ha
  obtain ⟨hlb, hbb, hsb⟩ := SS_facts b hb
  obtain ⟨hlc, hbc, hsc⟩ := SS_facts c hc
  obtain ⟨hld, hbd, hsd⟩ := SS_facts d hd
  simp only [hammingWeight4]
  rw [pipeline_v3 a ha, pipeline_v3 b hb, pipeline_v3 c hc, pipeline_v3 d hd]
  rw [← wsum_zipWith_add 256 _ _ (by rw [hla, hlb])]
  rw [← wsum_zipWith_add 256 _ _ (by
    rw [hlc]
    simp only [List.length_zipWith, hla, hlb]
    omega)]
  rw [← wsum_zipWith_add 256 _ _ (by
    rw [hld]
    simp only [List.length_zipWith, hla, hlb, hlc]
    omega)]
  have hZlen : (List.zipWith (· + ·) (List.zipWith (· + ·) (List.zipWith (· + ·)
      (sumPairs (sumPairs ((digits4 a).map fun x => x - x / 2)))
      (sumPairs (sumPairs ((digits4 b).map fun x => x - x / 2))))
      (sumPairs (sumPairs ((digits4 c).map fun x => x - x / 2))))
      (sumPairs (sumPairs ((digits4 d).map fun x => x - x / 2)))).length = 4 := by
    simp only [List.length_zipWith, hla, hlb, hlc, hld]
    omega
  have hZle : ∀ x ∈ List.zipWith (· + ·) (List.zipWith (· + ·) (List.zipWith (· + ·)
      (sumPairs (sumPairs ((digits4 a).map fun x => x - x / 2)))
      (sumPairs (sumPairs ((digits4 b).map fun x => x - x / 2))))
      (sumPairs (sumPairs ((digits4 c).map fun x => x - x / 2))))
      (sumPairs (sumPairs ((digits4 d).map fun x => x - x / 2))), x ≤ 32 := by
    intro x hx
    have h1 := zipWith_add_bound 8 8 _ _ hba hbb
    have h2 := zipWith_add_bound 16 8 _ _ h1 hbc
    have h3 := zipWith_add_bound 24 8 _ _ h2 hbd x hx
    omega
  rw [Nat.shiftRight_eq_div_pow, show (2 : Nat) ^ 24 = 16777216 by norm_num,
    wsum_mul_magic _ hZlen hZle]
  rw [zipWith_add_sum _ _ (by
      simp only [List.length_zipWith, hla, hlb, hlc]
      omega),
    zipWith_add_sum _ _ (by
      simp only [List.length_zipWith, hla, hlb]
      omega),
    zipWith_add_sum _ _ (by rw [hla, hlb]),
    hsa, hsb, hsc, hsd]

/-- C9: `hammingWeight` computes the popcount of its 32-bit argument —
in particular it maps `0` to `0` and the all-ones word to `32` — and
`hammingWeight4` computes the sum of the popcounts of its four 32-bit
arguments (each byte of the four interleaved pipelines carries a partial
count of at most 8, so the four byte sums of at most 32 survive the shared
`* 0x01010101 >>> 24` accumulation without carry interference). -/
theorem C9_popcount_correct (v a b c d : Nat) (hv : v < 4294967296)
    (ha : a < 4294967296) (hb : b < 4294967296) (hc : c < 4294967296)
    (hd : d < 4294967296) :
    hammingWeight v = popcount32 v ∧
    hammingWeight 0 = 0 ∧
    hammingWeight 4294967295 = 32 ∧
    hammingWeight4 a b c d =
      popcount32 a + popcount32 b + popcount32 c + popcount32 d :=
  ⟨hammingWeight_eq_popcount32 v hv, by decide, by decide,
   hammingWeight4_eq_popcount32 a b c d ha hb hc hd⟩

/-- C9 witness: the theorem applied to `0xDEADBEEF` and the quadruple
`(1, 3, 7, 0xFFFFFFFF)`. -/
theorem C9_popcount_correct_witness :
    (3735928559 < 4294967296 ∧ 4294967295 < 4294967296) ∧
    (hammingWeight 3735928559 = popcount32 3735928559 ∧
     hammingWeight 0 = 0 ∧
     hammingWeight 4294967295 = 32 ∧
     hammingWeight4 1 3 7 4294967295 =
       popcount32 1 + popcount32 3 + popcount32 7 + popcount32 4294967295) :=
  ⟨⟨by decide, by decide⟩,
   C9_popcount_correct 3735928559 1 3 7 4294967295 (by decide) (by decide)
     (by decide) (by decide) (by decide)⟩

/-- C5: refuted.  The sparse set `{0}` is in array mode with cached
maximum `data[0] = 0`, so the array-mode/dense branch of `change`
allocates `max(otherWords.length, data[0] << 37) = max(0, 0) = 0` words
when the other operand is a dense set with an empty buffer; the bit flip
for the entry `0` is an out-of-range write on the empty allocation and is
dropped.  One `change` therefore turns `{0}` into `∅` although the
symmetric difference `{0} Δ ∅` is `{0}`, and the second `change` keeps
`∅`, so `change`-twice does not restore the original membership. -/
theorem C5_change_loses_element_zero :
    (sparseOfList [0]).has 0 = true ∧
    ((sparseOfList [0]).changeDense []).has 0 = false ∧
    (((sparseOfList [0]).changeDense []).changeDense []).has 0 = false := by
  decide

/-- C7: refuted.  On the array-mode sparse set `{0,…,7}` the 8-slot
backing buffer is full, so the very first self-removing callback makes
`remove` reallocate; the buffer reference captured by `forEach` goes
stale, the `v !== array[i]` revisit test always compares the stale buffer
against itself, and the traversal visits only `7, 0, 1, 2` of the eight
members present at the start (3, 4, 5 and 6 are never visited).  On the
claim's own five-element example `{1,2,4,5,10}` the buffer has spare
capacity, no reallocation happens, and every member is visited exactly
once — the defect needs a full buffer. -/
theorem C7_forEach_self_removal_skips :
    (sparseOfList [1,2,4,5,10]).liveList = [10,1,2,4,5] ∧
    (sparseOfList [1,2,4,5,10]).forEachRemoveVisits = [10,5,4,2,1] ∧
    (sparseOfList [0,1,2,3,4,5,6,7]).liveList = [7,0,1,2,3,4,5,6] ∧
    (sparseOfList [0,1,2,3,4,5,6,7]).forEachRemoveVisits = [7,0,1,2] := by
  decide

end TFBS
